import Mathlib

/-!
Verification development for the qorm client library core
(wire codec, LZ-style IPC compression, connection pool, retry policy,
query compiler).  Bytes are modelled as natural numbers < 256, byte
strings as `List Nat`, Python `int` as `Int`, Python `float` by its
IEEE-754 bit pattern.  Fallible Python code (exceptions) is modelled
with `Option` / `Except`.
-/

namespace Qorm

/-- Byte-wise read with Python-style default only where the source code
is statically in bounds (see comments at use sites). -/
def byteAt (l : List Nat) (i : Nat) : Nat := (l.get? i).getD 0

/-- Little-endian 32-bit encoding of a natural number (struct `<i` for
the non-negative values the library packs: message lengths). -/
def le32 (n : Nat) : List Nat :=
  [n % 256, n / 256 % 256, n / 65536 % 256, n / 16777216 % 256]

/-- Big-endian 32-bit encoding. -/
def be32 (n : Nat) : List Nat :=
  [n / 16777216 % 256, n / 65536 % 256, n / 256 % 256, n % 256]

/-- Unsigned value of 4 bytes at position `i`, little-endian. -/
def readU32LE (l : List Nat) (i : Nat) : Nat :=
  byteAt l i + 256 * byteAt l (i+1) + 65536 * byteAt l (i+2)
    + 16777216 * byteAt l (i+3)

/-- Unsigned value of 4 bytes at position `i`, big-endian. -/
def readU32BE (l : List Nat) (i : Nat) : Nat :=
  byteAt l (i+3) + 256 * byteAt l (i+2) + 65536 * byteAt l (i+1)
    + 16777216 * byteAt l i

/-- Signed interpretation of a 32-bit unsigned value (struct `i`). -/
def toInt32 (n : Nat) : Int :=
  if n < 2147483648 then (n : Int) else (n : Int) - 4294967296

/-- struct `<i` / `>i` unpack of 4 bytes at position `i`. -/
def readI32 (le : Bool) (l : List Nat) (i : Nat) : Int :=
  toInt32 (if le then readU32LE l i else readU32BE l i)

/-- In-place byte write, no-op when out of range (used only where the
Python code is statically in bounds). -/
def setByte (l : List Nat) (i v : Nat) : List Nat := l.set i v

/-- Guarded byte write: `none` models a Python `IndexError`. -/
def setByteB (l : List Nat) (i v : Nat) : Option (List Nat) :=
  if i < l.length then some (l.set i v) else none

/-- Guarded byte read: `none` models a Python `IndexError`. -/
def getByteB (l : List Nat) (i : Nat) : Option Nat := l.get? i

/-!  ## 4.D Compressor (src/qorm/protocol/compress.py, `compress`)

Faithful port of the `compress` loop.  State variables keep the
source's one-letter names: `y` data, `t` source end, `e` output
capacity, `c` control-byte position, `d` output cursor, `s` source
cursor, `i` bit multiplier, `f` control accumulator, `(s0, h0)`
deferred hash update, `h` current hash, `a` 256-entry hash table.
`& 0xFF` is written `% 256` (equal on naturals).  Reads `y[s]`,
`y[s+1]`, `y[p]` are in bounds whenever executed (loop guards), so the
defaulting `byteAt` is exact.  Aborts (`return data`) are `none`. -/

/-- Length of the match extension: how many further bytes after the
first two agree (`while s < q and y[p] == y[s]`), counting from `s`.
`bound` is `q - s`, so `s < q` iff `bound > 0`; structural recursion on
`bound` lets the kernel evaluate the definition. -/
def matchExt (y : List Nat) (p s : Nat) : Nat → Nat
  | 0 => 0
  | b+1 => if byteAt y p = byteAt y s then matchExt y (p+1) (s+1) b + 1 else 0

/-- One-pass compression loop; returns final `(out, d)` or `none` when
the source aborts and returns the input unchanged.  `fuel` is an upper
bound on the remaining iterations (the source cursor `s` strictly
increases, so `t` iterations always suffice); it exists only to make
the recursion structural. -/
def compLoop (y : List Nat) (t e : Nat) (fuel : Nat) (c d s i f s0 h0 h : Nat)
    (out : List Nat) (a : List Nat) : Option (List Nat × Nat) :=
  match fuel with
  | 0 => none
  | fuel+1 =>
  if s < t then
    -- control byte management (if 0 == i)
    if i = 0 ∧ d > e - 17 then none
    else
      let i1 := if i = 0 then 1 else i
      let out1 := if i = 0 then setByte out c (f % 256) else out
      let c1 := if i = 0 then d else c
      let d1 := if i = 0 then d + 1 else d
      let f1 := if i = 0 then 0 else f
      -- match check
      if s > t - 3 then
        -- literal with possibly stale h
        let a1 := if s0 > 0 then setByte a h0 s0 else a
        let out2 := setByte out1 d1 (byteAt y s)
        compLoop y t e fuel c1 (d1+1) (s+1) (i1 * 2 % 256) f1 s h h out2 a1
      else
        let hN := (byteAt y s ^^^ byteAt y (s+1)) % 256
        let p := byteAt a hN
        let a1 := if s0 > 0 then setByte a h0 s0 else a
        if p = 0 ∨ byteAt y s ≠ byteAt y p then
          -- literal byte
          let out2 := setByte out1 d1 (byteAt y s)
          compLoop y t e fuel c1 (d1+1) (s+1) (i1 * 2 % 256) f1 s hN hN out2 a1
        else
          -- back-reference match
          let a2 := setByte a1 hN s
          let f2 := f1 ||| i1
          let q := min (s + 2 + 255) t
          let n := matchExt y (p+2) (s+2) (q - (s+2))
          let out2 := setByte (setByte out1 d1 hN) (d1+1) n
          compLoop y t e fuel c1 (d1+2) (s+2+n) (i1 * 2 % 256) f2 0 h0 hN out2 a2
  else
    -- loop exit: out[c] = f & 0xFF; keep only if strictly smaller
    let outF := setByte out c (f % 256)
    if d ≥ t then none else some (outF, d)

/-- `compress(data, level)` from compress.py. -/
def compressM (data : List Nat) (level : Int) : List Nat :=
  if level ≤ 0 ∨ data.length ≤ 17 then data
  else
    let t := data.length
    let e := t / 2
    if e < 22 then data
    else
      let out0 := setByte (setByte (setByte (setByte
        (List.replicate e 0) 0 (t % 256)) 1 (t / 256 % 256))
        2 (t / 65536 % 256)) 3 (t / 16777216 % 256)
      match compLoop data t e t 4 4 8 0 0 0 0 0 out0 (List.replicate 256 0) with
      | none => data
      | some (out, d) => out.take d

/-!  ## 4.D Decompressor (src/qorm/protocol/compress.py, `decompress`)

`none` models a Python `IndexError` (unguarded `data[d]` reads in the
back-reference branch and `dst[...]` writes past the allocation, which
can occur on garbled input).  A `break` in the source returns the
partially filled `dst`, hence `some`. -/

/-- `for m in range(n): dst[s+m] = dst[r+m]` with bounds checking. -/
def copyBack (dst : List Nat) (s r n : Nat) : Option (List Nat) :=
  match n with
  | 0 => some dst
  | k+1 => do
      let v ← getByteB dst r
      let dst1 ← setByteB dst s v
      copyBack dst1 (s+1) (r+1) k

/-- `while p < s - 1: aa[(dst[p] ^ dst[p+1]) & 0xFF] = p; p += 1`.
`bound` is `s - 1 - p` (so the loop guard `p < s - 1` becomes
`bound > 0`); reads are in bounds whenever executed. -/
def hashCatchUp (dst : List Nat) (aa : List Nat) (p : Nat) :
    Nat → List Nat × Nat
  | 0 => (aa, p)
  | b+1 =>
    hashCatchUp dst (setByte aa ((byteAt dst p ^^^ byteAt dst (p+1)) % 256) p)
      (p+1) b

/-- Decompression loop.  `fuel` bounds the remaining iterations (the
output cursor `s` strictly increases, so `ulen` iterations suffice). -/
def decompLoop (data : List Nat) (ulen : Nat) (fuel : Nat) (f s p i d : Nat)
    (dst : List Nat) (aa : List Nat) : Option (List Nat) :=
  match fuel with
  | 0 => none
  | fuel+1 =>
  if s < ulen then
    -- control byte management
    if i = 0 ∧ d ≥ data.length then some dst        -- break
    else
      let f1 := if i = 0 then byteAt data d % 256 else f
      let d1 := if i = 0 then d + 1 else d
      let i1 := if i = 0 then 1 else i
      if f1 &&& i1 ≠ 0 then do
        -- back-reference
        let idx ← getByteB data d1
        let r := byteAt aa (idx % 256)
        let v0 ← getByteB dst r
        let dst1 ← setByteB dst s v0
        let v1 ← getByteB dst1 (r+1)
        let dst2 ← setByteB dst1 (s+1) v1
        let n ← getByteB data (d1+1)
        let dst3 ← copyBack dst2 (s+2) (r+2) (n % 256)
        let (aa1, _) := hashCatchUp dst3 aa p (s + 2 - 1 - p)
        let i2 := if i1 * 2 = 256 then 0 else i1 * 2
        decompLoop data ulen fuel f1 (s+2+n % 256) (s+2+n % 256) i2 (d1+2)
          dst3 aa1
      else
        -- literal byte
        if d1 ≥ data.length then some dst           -- break
        else do
          let v ← getByteB data d1
          let dst1 ← setByteB dst s v
          let (aa1, p1) := hashCatchUp dst1 aa p (s + 1 - 1 - p)
          let i2 := if i1 * 2 = 256 then 0 else i1 * 2
          decompLoop data ulen fuel f1 (s+1) p1 i2 (d1+1) dst1 aa1
  else some dst

/-- `decompress(data, header_bytes)` from compress.py. -/
def decompressM (data : List Nat) (headerBytes : List Nat) :
    Option (List Nat) :=
  if data.length < 8 then some data
  else
    let le := headerBytes.length < 1 ∨ byteAt headerBytes 0 = 1
    let ulenI := readI32 le data 0
    if ulenI < 9 then some data
    else
      let ulen := ulenI.toNat
      let dst0 := List.replicate ulen 0
      let dst1 :=
        if headerBytes.length ≥ 8 then
          let lenBytes := if le then le32 ulen else be32 ulen
          setByte (setByte (setByte (setByte
            (setByte (setByte (setByte (setByte dst0
              0 (byteAt headerBytes 0)) 1 (byteAt headerBytes 1))
              2 0) 3 0)
              4 (byteAt lenBytes 0)) 5 (byteAt lenBytes 1))
              6 (byteAt lenBytes 2)) 7 (byteAt lenBytes 3)
        else dst0
      decompLoop data ulen ulen 0 8 8 0 4 dst1 (List.replicate 256 0)

/-!  ## Host values (types/nulls.py, serializer.py, deserializer.py)

`PyVal` models the Python values the codec touches.  Strings are
identified with their UTF-8 byte sequences (`str.encode('utf-8')` /
`bytes.decode('utf-8')` are mutually inverse on the valid data all
theorems use).  `float` carries the IEEE-754 double bit pattern,
`float32` the pattern of a value unpacked from a 4-byte real.
`temporal tc raw` abstracts the epoch-converted host temporal object
by its wire value; no theorem below touches a non-null temporal atom,
and typed temporal nulls are recognised before conversion in the
source.  `lambdaDesc`/`funcDesc` stand for the descriptor strings the
source builds for function-family tags. -/

inductive PyVal where
  | bool (b : Bool)
  | int (v : Int)
  | float (bits : Nat)
  | float32 (bits : Nat)
  | str (u : List Nat)
  | bytes (b : List Nat)
  | guid (g16 : List Nat)
  | list (xs : List PyVal)
  | dictV (ks vs : List PyVal)
  | qnull (tc : Nat)
  | qvec (tc attr : Nat) (xs : List PyVal)
  | temporal (tc : Nat) (raw : Int)
  | lambdaDesc (ns : List Nat) (body : PyVal)
  | funcDesc (tb : Nat)

/- A Python dict is modelled by its key and value sequences in
insertion order (`dictV`); values built by the deserializer's
`dict(zip(keys, values))` have equal lengths by construction.  Model
equality is positional, which agrees with Python dict equality for the
order-canonical values the deserializer produces. -/

/-- Serialization failures: `structError` is a `struct.error`,
`serError` the library's `SerializationError`. -/
inductive SErr where
  | structError
  | serError
  deriving DecidableEq

/-- Deserialization failures.  `qerror` carries the server text of a
tag-128 reply (`QError`); `indexError`, `structError`, `valueError`,
`keyError` model the uncaught Python exceptions of the same names;
`deserError` is the library's `DeserializationError`; `fuelOut` is
unreachable for the fuel the entry points supply. -/
inductive DErr where
  | qerror (msg : List Nat)
  | deserError
  | indexError
  | structError
  | valueError
  | keyError
  | fuelOut
  deriving DecidableEq

/-- `width` bytes of `n`, little-endian. -/
def natLE : Nat → Nat → List Nat
  | 0, _ => []
  | w+1, n => n % 256 :: natLE w (n / 256)

/-- Value of a little-endian byte list. -/
def natOfLE : List Nat → Nat
  | [] => 0
  | b :: r => b % 256 + 256 * natOfLE r

/-- Two's-complement encoding of `v` in `width` bytes (exact when the
caller has checked the range, as `struct.pack` does). -/
def intLE (width : Nat) (v : Int) : List Nat :=
  natLE width (v.emod ((256 : Int) ^ width)).toNat

/-- Signed value of an unsigned `width`-byte quantity. -/
def toSigned (width : Nat) (n : Nat) : Int :=
  if n < 256 ^ width / 2 then (n : Int) else (n : Int) - (256 : Int) ^ width

/-- struct format of TYPE_STRUCT (protocol/constants.py): integer
formats carry (signedness, width); floats are separate. -/
inductive Fmt where
  | iFmt (signed : Bool) (width : Nat)
  | f32
  | f64
  deriving DecidableEq

/-- TYPE_STRUCT: type code → struct format (`none` = KeyError). -/
def typeStruct (tc : Nat) : Option Fmt :=
  match tc with
  | 1 => some (.iFmt true 1)    -- BOOLEAN 'b'
  | 4 => some (.iFmt false 1)   -- BYTE 'B'
  | 5 => some (.iFmt true 2)    -- SHORT 'h'
  | 6 => some (.iFmt true 4)    -- INT 'i'
  | 7 => some (.iFmt true 8)    -- LONG 'q'
  | 8 => some .f32              -- REAL 'f'
  | 9 => some .f64              -- FLOAT 'd'
  | 12 => some (.iFmt true 8)   -- TIMESTAMP 'q'
  | 13 => some (.iFmt true 4)   -- MONTH 'i'
  | 14 => some (.iFmt true 4)   -- DATE 'i'
  | 15 => some .f64             -- DATETIME 'd'
  | 16 => some (.iFmt true 8)   -- TIMESPAN 'q'
  | 17 => some (.iFmt true 4)   -- MINUTE 'i'
  | 18 => some (.iFmt true 4)   -- SECOND 'i'
  | 19 => some (.iFmt true 4)   -- TIME 'i'
  | _ => none

/-- Width in bytes of a format. -/
def fmtWidth : Fmt → Nat
  | .iFmt _ w => w
  | .f32 => 4
  | .f64 => 8

/-- Integer null value of NULL_VALUES (types/nulls.py) for the integer
formats; float nulls (NaN) are pattern checks, see `isNaN32/64`. -/
def intNullVal (tc : Nat) : Option Int :=
  match tc with
  | 4 => some 0                          -- NULL_BYTE
  | 5 => some (-32768)                   -- NULL_SHORT
  | 6 => some (-2147483648)              -- NULL_INT
  | 7 => some (-9223372036854775808)     -- NULL_LONG
  | 12 => some (-9223372036854775808)    -- NULL_TIMESTAMP
  | 13 => some (-2147483648)             -- NULL_MONTH
  | 14 => some (-2147483648)             -- NULL_DATE
  | 16 => some (-9223372036854775808)    -- NULL_TIMESPAN
  | 17 => some (-2147483648)             -- NULL_MINUTE
  | 18 => some (-2147483648)             -- NULL_SECOND
  | 19 => some (-2147483648)             -- NULL_TIME
  | _ => none

/-- NaN test on a 64-bit IEEE pattern (`math.isnan` after unpack). -/
def isNaN64 (bits : Nat) : Bool :=
  bits / 2 ^ 52 % 2 ^ 11 = 2 ^ 11 - 1 ∧ bits % 2 ^ 52 ≠ 0

/-- NaN test on a 32-bit IEEE pattern. -/
def isNaN32 (bits : Nat) : Bool :=
  bits / 2 ^ 23 % 2 ^ 8 = 2 ^ 8 - 1 ∧ bits % 2 ^ 23 ≠ 0

/-- Bytes of `struct.pack('<f', float('nan'))`: 0x7FC00000. -/
def nan32Bytes : List Nat := [0, 0, 192, 127]

/-- Bytes of `struct.pack('<d', float('nan'))`: 0x7FF8000000000000. -/
def nan64Bytes : List Nat := [0, 0, 0, 0, 0, 0, 248, 127]

/-!  ## Serializer (protocol/serializer.py) -/

/-- `Serializer._serialize_atom_null`: tag `256 - tc` then the packed
null marker.  CHAR's NULL_CHAR is the Python `str` `' '`, which
`struct.pack('c', ...)` rejects — a `struct.error`.  A type code
outside NULL_VALUES is a KeyError, folded into `structError` here
(no theorem distinguishes the two kinds). -/
def serializeAtomNull (tc : Nat) : Except SErr (List Nat) :=
  match tc with
  | 2 => .ok ((256 - 2) :: List.replicate 16 0)            -- GUID
  | 11 => .ok [256 - 11, 0]                                -- SYMBOL
  | 1 => .ok [256 - 1, 0]                                  -- BOOLEAN (pack 'b' False)
  | 4 => .ok [256 - 4, 0]                                  -- BYTE
  | 5 => .ok ((256 - 5) :: intLE 2 (-32768))               -- SHORT
  | 6 => .ok ((256 - 6) :: intLE 4 (-2147483648))          -- INT
  | 7 => .ok ((256 - 7) :: intLE 8 (-9223372036854775808)) -- LONG
  | 8 => .ok ((256 - 8) :: nan32Bytes)                     -- REAL
  | 9 => .ok ((256 - 9) :: nan64Bytes)                     -- FLOAT
  | 10 => .error .structError                              -- CHAR: pack 'c' with str ' '
  | 12 => .ok ((256 - 12) :: intLE 8 (-9223372036854775808))
  | 13 => .ok ((256 - 13) :: intLE 4 (-2147483648))
  | 14 => .ok ((256 - 14) :: intLE 4 (-2147483648))
  | 15 => .ok ((256 - 15) :: nan64Bytes)                   -- DATETIME (NaN)
  | 16 => .ok ((256 - 16) :: intLE 8 (-9223372036854775808))
  | 17 => .ok ((256 - 17) :: intLE 4 (-2147483648))
  | 18 => .ok ((256 - 18) :: intLE 4 (-2147483648))
  | 19 => .ok ((256 - 19) :: intLE 4 (-2147483648))
  | _ => .error .structError

/-- `struct.pack` of one value with an integer/float format, as used by
`_serialize_typed_vector` and the temporal atom writers.  Python
`bool` packs as 0/1 (int subclass); an out-of-range int raises
`struct.error`.  Packing a Python int into a float format (int→double
conversion) is not modelled; no theorem exercises it. -/
def packFmt (fmt : Fmt) (v : PyVal) : Except SErr (List Nat) :=
  match fmt, v with
  | .iFmt true w, .int n =>
      if -((256:Int) ^ w / 2) ≤ n ∧ n < (256:Int) ^ w / 2
      then .ok (intLE w n) else .error .structError
  | .iFmt false w, .int n =>
      if 0 ≤ n ∧ n < (256:Int) ^ w then .ok (intLE w n)
      else .error .structError
  | .iFmt true w, .bool b => .ok (intLE w (if b then 1 else 0))
  | .iFmt false w, .bool b => .ok (intLE w (if b then 1 else 0))
  | .f64, .float bits => if bits < 2 ^ 64 then .ok (natLE 8 bits)
      else .error .structError
  | .f32, .float32 bits => if bits < 2 ^ 32 then .ok (natLE 4 bits)
      else .error .structError
  | _, _ => .error .structError

mutual

/-- `Serializer._serialize` dispatch (payload bytes, no header).
Dispatch order follows the source; host types outside this universe
(temporal objects are carried as `temporal tc raw`, see `PyVal`). -/
def serializeV : PyVal → Except SErr (List Nat)
  | .qnull tc => serializeAtomNull tc
  | .bool b => .ok [256 - 1, if b then 1 else 0]
  | .int v =>
      if -(2:Int) ^ 63 ≤ v ∧ v < 2 ^ 63
      then .ok ((256 - 7) :: intLE 8 v) else .error .structError
  | .float bits =>
      if bits < 2 ^ 64 then .ok ((256 - 9) :: natLE 8 bits)
      else .error .structError
  | .float32 _ => .error .serError  -- a float32-typed host float does not occur
  | .str u => .ok ([10, 0] ++ le32 u.length ++ u)
  | .bytes b => .ok ([4, 0] ++ le32 b.length ++ b)
  | .guid g16 => .ok ((256 - 2) :: g16)
  | .list xs => do
      let body ← serializeList xs
      .ok ([0, 0] ++ le32 xs.length ++ body)
  | .dictV ks vs => do
      -- keys and values each serialize as a Python list (mixed list)
      let kb ← serializeList ks
      let vb ← serializeList vs
      .ok (99 :: ([0, 0] ++ le32 ks.length ++ kb
        ++ [0, 0] ++ le32 vs.length ++ vb))
  | .qvec tc attr xs =>
      if tc = 11 then
        .ok ([11, attr % 256] ++ le32 xs.length ++
          (xs.map fun x => match x with
            | .str u => u ++ [0]
            | _ => [0]).flatten)
      else if tc = 2 then
        .ok ([2, attr % 256] ++ le32 xs.length ++
          (xs.map fun x => match x with
            | .guid g16 => g16
            | _ => List.replicate 16 0).flatten)
      else
        match typeStruct tc with
        | none => .error .structError  -- TYPE_STRUCT KeyError
        | some fmt => do
            let body ← packList fmt xs
            .ok ([tc % 256, attr % 256] ++ le32 xs.length ++ body)
  | .temporal tc raw =>
      -- datetime/date/timedelta/time objects serialize through the
      -- epoch converters to their raw wire integer (temporal.py)
      (match typeStruct tc with
       | some (.iFmt true w) =>
          if -((256:Int) ^ w / 2) ≤ raw ∧ raw < (256:Int) ^ w / 2
          then .ok (((256 - tc) % 256) :: intLE w raw)
          else .error .structError
       | _ => .error .serError)
  | .lambdaDesc _ _ => .error .serError
  | .funcDesc _ => .error .serError

/-- Recursive encoding of a mixed list's items. -/
def serializeList : List PyVal → Except SErr (List Nat)
  | [] => .ok []
  | v :: vs => do
      let b ← serializeV v
      let r ← serializeList vs
      .ok (b ++ r)

/-- Packed body of a numeric typed vector. -/
def packList (fmt : Fmt) : List PyVal → Except SErr (List Nat)
  | [] => .ok []
  | v :: vs => do
      let b ← packFmt fmt v
      let r ← packList fmt vs
      .ok (b ++ r)

end

/-- `Serializer.serialize_message`: 8-byte header (pack_header, always
little-endian: endian 1, msg_type, two zero bytes, int32 total length)
followed by the payload. -/
def serializeMessage (obj : PyVal) (msgType : Nat) :
    Except SErr (List Nat) := do
  let payload ← serializeV obj
  .ok ([1, msgType % 256, 0, 0] ++ le32 (8 + payload.length) ++ payload)

/-!  ## Deserializer (protocol/deserializer.py) -/

/-- Bytes before the first NUL, `none` when there is none (the symbol
scan would run past the buffer: IndexError). -/
def splitAtZero : List Nat → Option (List Nat)
  | [] => none
  | 0 :: _ => some []
  | b :: r => (splitAtZero r).map (b :: ·)

/-- `Deserializer._read_symbol`: null-terminated byte run; the Python
value is its UTF-8 decoding, identified here with the bytes. -/
def readSymB (data : List Nat) (pos : Nat) : Except DErr (List Nat × Nat) :=
  match splitAtZero (data.drop pos) with
  | some sym => .ok (sym, pos + sym.length + 1)
  | none => .error .indexError

/-- `Deserializer._read_bytes`: a Python slice, silently shorter at the
end of the buffer. -/
def readBytesAt (data : List Nat) (pos n : Nat) : List Nat :=
  (data.drop pos).take n

/-- `struct.unpack_from` of one `width`-byte unsigned quantity; a short
buffer is a `struct.error`. -/
def unpackU (le : Bool) (width : Nat) (data : List Nat) (pos : Nat) :
    Except DErr Nat :=
  if pos + width ≤ data.length then
    let bs := readBytesAt data pos width
    .ok (natOfLE (if le then bs else bs.reverse))
  else .error .structError

/-- int32 read (`self._unpack('i')`). -/
def unpackI32 (le : Bool) (data : List Nat) (pos : Nat) : Except DErr Int := do
  let n ← unpackU le 4 data pos
  .ok (toSigned 4 n)

/-- QTypeCode membership (protocol/constants.py); `QTypeCode(x)` raises
ValueError outside this set. -/
def isQTypeCode (tc : Nat) : Bool :=
  tc = 0 ∨ tc = 1 ∨ tc = 2 ∨ (4 ≤ tc ∧ tc ≤ 19) ∨ tc = 98 ∨ tc = 99
    ∨ tc = 127 ∨ (100 ≤ tc ∧ tc ≤ 111)

/-- `Deserializer._convert_atom` on an integer raw value: temporal
codes go через the epoch converters (abstracted by `temporal`),
numeric codes return the raw value. -/
def convertAtomInt (tc : Nat) (v : Int) : PyVal :=
  if 12 ≤ tc ∧ tc ≤ 19 then .temporal tc v else .int v

/-- `chr(b)` for a byte, as UTF-8 (`_deserialize_atom` CHAR branch). -/
def chrByte (b : Nat) : PyVal :=
  if b < 128 then .str [b] else .str [192 + b / 64, 128 + b % 64]

/-- `Deserializer._deserialize_atom` for an in-enum type code. -/
def deserAtom (le : Bool) (tc : Nat) (data : List Nat) (pos : Nat) :
    Except DErr (PyVal × Nat) :=
  if tc = 1 then do
    let b ← match getByteB data pos with
      | some b => .ok b
      | none => .error .indexError
    .ok (.bool (b ≠ 0), pos + 1)
  else if tc = 2 then
    let raw := readBytesAt data pos 16
    if raw.length < 16 then .error .valueError     -- uuid.UUID length check
    else if raw = List.replicate 16 0 then .ok (.qnull 2, pos + 16)
    else .ok (.guid raw, pos + 16)
  else if tc = 11 then do
    let (sym, p2) ← readSymB data pos
    .ok (.str sym, p2)                             -- no null check: '' stays a str
  else if tc = 10 then do
    let b ← match getByteB data pos with
      | some b => .ok b
      | none => .error .indexError
    .ok (chrByte b, pos + 1)
  else
    match typeStruct tc with
    | none => .error .keyError                     -- TYPE_STRUCT KeyError
    | some (.iFmt signed w) => do
        let n ← unpackU le w data pos
        let v : Int := if signed then toSigned w n else (n : Int)
        if intNullVal tc = some v then .ok (.qnull tc, pos + w)
        else .ok (convertAtomInt tc v, pos + w)
    | some .f32 => do
        let bits ← unpackU le 4 data pos
        if isNaN32 bits then .ok (.qnull tc, pos + 4)
        else .ok (.float32 bits, pos + 4)
    | some .f64 => do
        let bits ← unpackU le 8 data pos
        if isNaN64 bits then .ok (.qnull tc, pos + 8)
        -- non-null DATETIME converts through the epoch; identified by bits
        else if tc = 15 then .ok (.temporal 15 (bits : Int), pos + 8)
        else .ok (.float bits, pos + 8)

/-- `_unpack_many` for an integer format: upfront size check as in
`struct.unpack_from`, then `count` values. -/
def unpackManyU (le : Bool) (width : Nat) (data : List Nat) (pos : Nat) :
    Nat → Except DErr (List Nat)
  | 0 => .ok []
  | k+1 => do
      let n ← unpackU le width data pos
      let r ← unpackManyU le width data (pos + width) k
      .ok (n :: r)

/-- The key `'__table__'` as UTF-8 bytes. -/
def tableKey : List Nat := [95, 95, 116, 97, 98, 108, 101, 95, 95]

/-- The keys `'keys'` and `'values'` as UTF-8 bytes. -/
def keysKey : List Nat := [107, 101, 121, 115]

def valuesKey : List Nat := [118, 97, 108, 117, 101, 115]

/-- The dict branch's combining step: `dict(zip(keys, values))` when
both sub-values are Python lists (zip truncates to the shorter), else
the `{'keys': keys, 'values': values}` record. -/
def dictCombine (k v : PyVal) : PyVal :=
  match k, v with
  | .list ka, .list va =>
      .dictV (ka.take (min ka.length va.length))
        (va.take (min ka.length va.length))
  | k, v => .dictV [.str keysKey, .str valuesKey] [k, v]

/-- Python `d[k] = v`: replace in place when the key is present, else
append (insertion order). -/
def dictAssign (ks vs : List PyVal) (k v : PyVal) (eqk : PyVal → Bool) :
    List PyVal × List PyVal :=
  match ks, vs with
  | [], _ => ([k], [v])
  | k0 :: kr, [] => (k0 :: kr, [v])  -- unreachable for equal-length dicts
  | k0 :: kr, v0 :: vr =>
      if eqk k0 then (k0 :: kr, v :: vr)
      else
        let (kr2, vr2) := dictAssign kr vr k v eqk
        (k0 :: kr2, v0 :: vr2)

/-- Symbol vector items (`[self._read_symbol() for _ in range(count)]`). -/
def deserSyms (data : List Nat) : Nat → Nat → Except DErr (List PyVal × Nat)
  | pos, 0 => .ok ([], pos)
  | pos, k+1 => do
      let (sym, p2) ← readSymB data pos
      let (rest, p3) ← deserSyms data p2 k
      .ok (.str sym :: rest, p3)

/-- GUID vector items. -/
def deserGuids (data : List Nat) : Nat → Nat → Except DErr (List PyVal × Nat)
  | pos, 0 => .ok ([], pos)
  | pos, k+1 =>
      let raw := readBytesAt data pos 16
      if raw.length < 16 then .error .valueError
      else do
        let v := if raw = List.replicate 16 0 then PyVal.qnull 2
                 else PyVal.guid raw
        let (rest, p3) ← deserGuids data (pos + 16) k
        .ok (v :: rest, p3)

/-- Request shape for the deserializer: a single value
(`_deserialize`) or the items of a mixed list.  A single structurally
decreasing fuel keeps the kernel able to evaluate the definition. -/
inductive DMode where
  | one (pos : Nat)
  | many (pos count : Nat)

/-- `Deserializer._deserialize` (mode `.one`) and the mixed-list item
loop (mode `.many`).  `fuel` bounds the depth of the call chain; each
value consumes at least its tag byte, so `2·length + 16` suffices at
the entry points. -/
def deserGo (le : Bool) (data : List Nat) :
    Nat → DMode → Except DErr (PyVal × Nat)
  | 0, _ => .error .fuelOut
  | fuel+1, .many pos 0 => .ok (.list [], pos)
  | fuel+1, .many pos (k+1) => do
    let (v, p2) ← deserGo le data fuel (.one pos)
    let (rest, p3) ← deserGo le data fuel (.many p2 k)
    match rest with
    | .list vs => .ok (.list (v :: vs), p3)
    | _ => .error .deserError                      -- unreachable
  | fuel+1, .one pos => do
    let tb ← match getByteB data pos with
      | some b => .ok b
      | none => .error .indexError
    let pos := pos + 1
    if tb = 128 then do
      -- error reply: raise QError(symbol)
      let (msg, _) ← readSymB data pos
      .error (.qerror msg)
    else if tb > 128 then
      let tc := 256 - tb
      if isQTypeCode tc then deserAtom le tc data pos
      else .error .valueError                      -- QTypeCode(...) ValueError
    else if tb = 0 then do
      -- mixed list: attr, int32 count, recursive items
      let _attr ← match getByteB data pos with
        | some b => .ok b
        | none => .error .indexError
      let count ← unpackI32 le data (pos + 1)
      deserGo le data fuel (.many (pos + 5) count.toNat)
    else if 1 ≤ tb ∧ tb ≤ 19 then
      if ¬ isQTypeCode tb then .error .valueError  -- QTypeCode(3)
      else do
        let _attr ← match getByteB data pos with
          | some b => .ok b
          | none => .error .indexError
        let count ← unpackI32 le data (pos + 1)
        let body := pos + 5
        if tb = 11 then do
          let (vs, p2) ← deserSyms data body count.toNat
          .ok (.list vs, p2)
        else if tb = 2 then do
          let (vs, p2) ← deserGuids data body count.toNat
          .ok (.list vs, p2)
        else if tb = 10 then
          -- char vector → str (utf-8 decode, identified with the bytes)
          .ok (.str (readBytesAt data body count.toNat),
               body + count.toNat)
        else if tb = 1 then
          .ok (.list ((readBytesAt data body count.toNat).map
                 fun b => .bool (b ≠ 0)),
               body + count.toNat)
        else
          match typeStruct tb with
          | none => .error .keyError
          | some (.iFmt signed w) => do
              if (count : Int) < 0 then .error .structError
              else do
                let raws ← unpackManyU le w data body count.toNat
                let vals := raws.map fun n =>
                  let v : Int := if signed then toSigned w n else (n : Int)
                  if intNullVal tb = some v then PyVal.qnull tb
                  else convertAtomInt tb v
                .ok (.list vals, body + w * count.toNat)
          | some .f32 => do
              if (count : Int) < 0 then .error .structError
              else do
                let raws ← unpackManyU le 4 data body count.toNat
                let vals := raws.map fun bits =>
                  if isNaN32 bits then PyVal.qnull tb else PyVal.float32 bits
                .ok (.list vals, body + 4 * count.toNat)
          | some .f64 => do
              if (count : Int) < 0 then .error .structError
              else do
                let raws ← unpackManyU le 8 data body count.toNat
                let vals := raws.map fun bits =>
                  if isNaN64 bits then PyVal.qnull tb
                  else if tb = 15 then PyVal.temporal 15 (bits : Int)
                  else PyVal.float bits
                .ok (.list vals, body + 8 * count.toNat)
    else if 20 ≤ tb ∧ tb ≤ 76 then do
      -- enumerated vector: int32 indices, returned raw
      let _attr ← match getByteB data pos with
        | some b => .ok b
        | none => .error .indexError
      let count ← unpackI32 le data (pos + 1)
      if count = 0 then .ok (.list [], pos + 5)
      else if count < 0 then .error .structError
      else do
        let raws ← unpackManyU le 4 data (pos + 5) count.toNat
        .ok (.list (raws.map fun n => PyVal.int (toSigned 4 n)),
             pos + 5 + 4 * count.toNat)
    else if tb = 98 then do
      -- table: attr byte, then inner dict tagged with '__table__'
      let _attr ← match getByteB data pos with
        | some b => .ok b
        | none => .error .indexError
      let (inner, p2) ← deserGo le data fuel (.one (pos + 1))
      match inner with
      | .dictV ks vs =>
          let (ks2, vs2) := dictAssign ks vs (.str tableKey) (.bool true)
            (fun k => match k with | .str u => u = tableKey | _ => false)
          .ok (.dictV ks2 vs2, p2)
      | v => .ok (v, p2)
    else if tb = 99 ∨ tb = 127 then do
      -- dict / sorted dict: two sub-values; zip if both are lists
      let (k, p2) ← deserGo le data fuel (.one pos)
      let (v, p3) ← deserGo le data fuel (.one p2)
      .ok (dictCombine k v, p3)
    else if tb = 100 then do
      -- lambda: namespace symbol + body
      let (ns, p2) ← readSymB data pos
      let (body, p3) ← deserGo le data fuel (.one p2)
      .ok (.lambdaDesc ns body, p3)
    else if 101 ≤ tb ∧ tb ≤ 111 then
      .ok (.funcDesc tb, pos)                      -- descriptor, consumes nothing
    else .error .deserError

/-- `Deserializer._deserialize` at a position, with explicit fuel. -/
def deser (le : Bool) (fuel : Nat) (data : List Nat) (pos : Nat) :
    Except DErr (PyVal × Nat) :=
  deserGo le data fuel (.one pos)

/-- `Deserializer.deserialize_message`: header (ValueError when shorter
than 8 bytes), endianness from byte 0, then one payload value from
position 8; returns `(msg_type, value)`.  The header's total_length is
read but not used.  Fuel `2·length + 16` always suffices (each decoded
value consumes at least its tag byte). -/
def deserializeMessage (raw : List Nat) : Except DErr (Nat × PyVal) :=
  if raw.length < 8 then .error .valueError
  else do
    let le := byteAt raw 0 = 1
    let msgType := byteAt raw 1
    let (v, _) ← deser le (2 * raw.length + 16) raw 8
    .ok (msgType, v)

/-- `Deserializer.deserialize_payload`: no header, little-endian. -/
def deserializePayload (payload : List Nat) : Except DErr PyVal := do
  let (v, _) ← deser true (2 * payload.length + 16) payload 0
  .ok v

/-!  ## 4.F/4.G Receive paths (connection/sync_conn.py `receive`,
connection/async_conn.py `receive`)

Socket I/O (reading the 8-byte header, then `total_length − 8` payload
bytes) is outside the embedding; both models take the bytes the reads
produced.  `SyncConnection.receive` builds `header + payload` and
deserialises it directly — it never consults the compressed flag.
`AsyncConnection.receive` checks `header_bytes[2]` and, when set,
calls `decompress(payload)` with the *default empty* `header_bytes`
argument before deserialising. -/

/-- Post-read processing of `SyncConnection.receive`. -/
def syncReceiveProcess (headerBytes payload : List Nat) :
    Except DErr (Nat × PyVal) :=
  deserializeMessage (headerBytes ++ payload)

/-- Post-read processing of `AsyncConnection.receive`; a `none` from
`decompress` (an uncaught exception there) is surfaced as
`indexError`. -/
def asyncReceiveProcess (headerBytes payload : List Nat) :
    Except DErr (Nat × PyVal) :=
  if byteAt headerBytes 2 ≠ 0 then
    match decompressM payload [] with
    | some full => deserializeMessage full
    | none => .error .indexError
  else deserializeMessage (headerBytes ++ payload)

/-!  ## 4.H Connection pool (connection/pool.py, `SyncPool`)

Sequential transition model.  A connection is represented by its
`is_open` flag at the time the pool handles it; the idle queue is the
list of those flags in FIFO order.  `size` is the Python `_size` int
(plain arithmetic, may go negative on unmatched releases).  A blocked
`Queue.put` (queue full) leaves the state unchanged, which is sound
for the safety claims proved here. -/

structure PoolState where
  size : Int
  idle : List Bool
  closed : Bool

/-- Result of an acquire: a connection (its open flag) or an error. -/
inductive AcqResult where
  | conn (isOpen : Bool)
  | errPool        -- PoolError: pool closed
  | errExhausted   -- PoolExhaustedError: timeout waiting
  deriving DecidableEq

/-- `SyncPool.__init__` after pre-populating `min_size` fresh open
connections. -/
def poolInit (minSize : Nat) : PoolState :=
  { size := minSize, idle := List.replicate minSize true, closed := false }

/-- `SyncPool.acquire` (sequential semantics).  Queue.get first; when
empty and below `max_size`, `_add_connection` opens a fresh connection
(put + immediate get, so the queue is unchanged); otherwise the
blocking wait times out in the sequential model.  With
`check_on_acquire`, a non-open candidate is closed and replaced by a
fresh open connection (`_replace_connection`), leaving `_size`
untouched. -/
def poolAcquire (maxSize : Nat) (checkOnAcquire : Bool) (st : PoolState) :
    PoolState × AcqResult :=
  if st.closed then (st, .errPool)
  else
    match st.idle with
    | c :: rest =>
        if checkOnAcquire ∧ ¬ c then ({ st with idle := rest }, .conn true)
        else ({ st with idle := rest }, .conn c)
    | [] =>
        if st.size < maxSize then
          ({ st with size := st.size + 1 }, .conn true)
        else (st, .errExhausted)

/-- `SyncPool.release`: when closed, just close the connection; when
open, enqueue it (a full queue blocks, modelled as no change); else
decrement `_size`. -/
def poolRelease (maxSize : Nat) (st : PoolState) (isOpen : Bool) :
    PoolState :=
  if st.closed then st
  else if isOpen then
    if st.idle.length < maxSize then { st with idle := st.idle ++ [isOpen] }
    else st
  else { st with size := st.size - 1 }

/-- `SyncPool.close`: mark closed, drain the queue, zero the count. -/
def poolClose (st : PoolState) : PoolState :=
  { size := 0, idle := [], closed := true }

/-- A pool client step: acquire, release of a connection whose
`is_open` flag is the payload, or close. -/
inductive PoolOp where
  | acquire
  | release (isOpen : Bool)
  | close

/-- Apply one operation. -/
def poolStep (maxSize : Nat) (checkOnAcquire : Bool) (st : PoolState) :
    PoolOp → PoolState
  | .acquire => (poolAcquire maxSize checkOnAcquire st).1
  | .release b => poolRelease maxSize st b
  | .close => poolClose st

/-- Run a sequence of operations from a state. -/
def poolRun (maxSize : Nat) (checkOnAcquire : Bool) (st : PoolState) :
    List PoolOp → PoolState
  | [] => st
  | op :: ops => poolRun maxSize checkOnAcquire
      (poolStep maxSize checkOnAcquire st op) ops

/-!  ## 4.I Retry policy (retry.py, `retry_sync`) -/

/-- An exception raised by the wrapped callable; `retryable` says
whether its type is in `policy.retryable_errors`. -/
structure RtErr where
  retryable : Bool
  tag : Nat
  deriving DecidableEq

/-- `retry_sync` from attempt number `attempt`: call `func`, return on
success; a retryable error retries (after the reconnect hook and the
backoff sleep, both outside the state here) until `attempt >=
max_retries`, a non-retryable error propagates at once.  `remaining`
is `max_retries - attempt`, so the guard `attempt >= max_retries`
becomes `remaining = 0` (structural recursion).  Returns the outcome
and the number of invocations of `func`. -/
def retryLoop (f : Nat → Except RtErr α) (attempt : Nat) :
    Nat → Except RtErr α × Nat
  | 0 =>
      match f attempt with
      | .ok a => (.ok a, 1)
      | .error e => (.error e, 1)
  | r+1 =>
      match f attempt with
      | .ok a => (.ok a, 1)
      | .error e =>
          if e.retryable then
            let (res, n) := retryLoop f (attempt + 1) r
            (res, n + 1)
          else (.error e, 1)

/-- `retry_sync(func, policy)`: attempts `0 .. max_retries`. -/
def retrySync (f : Nat → Except RtErr α) (maxRetries : Nat) :
    Except RtErr α × Nat :=
  retryLoop f 0 maxRetries

/-- `compute_delay`: `min(base * factor^attempt, max_delay)` with the
rationals standing in for Python floats. -/
def computeDelay (base factor maxDelay : ℚ) (attempt : Nat) : ℚ :=
  min (base * factor ^ attempt) maxDelay

/-!  ## 4.K Expression tree (query/expressions.py) and
## 4.L Query compiler (query/compiler.py)

Literal values carry the Python types `_compile_literal` dispatches
on; floats and datetime objects are outside the universe (no claim
touches them).  Strings are Lean strings; `str.isidentifier` is
modelled for ASCII (all identifiers the library builds are ASCII). -/

inductive QLit where
  | noneL
  | boolL (b : Bool)
  | intL (v : Int)
  | strL (s : String)
  | listL (xs : List QLit)
  | bytesL (bs : List Nat)
  | sentinel (q : String)       -- _QSentinel(q_repr)

inductive Expr where
  | col (name : String)         -- Column(name, model): compile uses the name
  | lit (v : QLit)
  | binop (op : String) (l r : Expr)
  | unop (op : String) (e : Expr)
  | call (fn : String) (args : List Expr)
  | agg (fn : String) (column : Expr)
  | fby (aggName : String) (c group : Expr)
  | eachE (inner : Expr) (adverb : String)

/-- The ASCII apostrophe (q's `each` adverb) and double quote. -/
def tickChar : String := String.singleton (Char.ofNat 39)

def dquoteChar : String := String.singleton (Char.ofNat 34)

/-- `str.isidentifier` (ASCII fragment). -/
def pyIsIdentifier (s : String) : Bool :=
  match s.toList with
  | [] => false
  | c :: rest =>
      (c.isAlpha ∨ c = Char.ofNat 95) ∧
        rest.all fun d => d.isAlphanum ∨ d = Char.ofNat 95

/-- `_Q_DATE_RE`: `^\d{4}\.\d{2}\.\d{2}$`. -/
def isQDateStr (s : String) : Bool :=
  match s.toList with
  | [a, b, c, d, p, e, f, q, g, h] =>
      a.isDigit ∧ b.isDigit ∧ c.isDigit ∧ d.isDigit ∧ p = '.' ∧
        e.isDigit ∧ f.isDigit ∧ q = '.' ∧ g.isDigit ∧ h.isDigit
  | _ => false

/-- `_Q_TIMESTAMP_RE`: `^\d{4}\.\d{2}\.\d{2}D` (prefix match). -/
def isQTimestampStr (s : String) : Bool :=
  match s.toList with
  | a :: b :: c :: d :: p :: e :: f :: q :: g :: h :: dd :: _ =>
      a.isDigit ∧ b.isDigit ∧ c.isDigit ∧ d.isDigit ∧ p = '.' ∧
        e.isDigit ∧ f.isDigit ∧ q = '.' ∧ g.isDigit ∧ h.isDigit ∧ dd = 'D'
  | _ => false

/-- `_Q_TIME_RE`: `^\d{2}:\d{2}:\d{2}` (prefix match). -/
def isQTimeStr (s : String) : Bool :=
  match s.toList with
  | a :: b :: p :: c :: d :: q :: e :: f :: _ =>
      a.isDigit ∧ b.isDigit ∧ p = ':' ∧ c.isDigit ∧ d.isDigit ∧ q = ':' ∧
        e.isDigit ∧ f.isDigit
  | _ => false

/-- Lowercase hex of one byte (`f'{b:02x}'`). -/
def byteHex (b : Nat) : String :=
  let dig := fun n => String.singleton (Char.ofNat
    (if n < 10 then 48 + n else 87 + n))
  dig (b / 16 % 16) ++ dig (b % 16)

mutual

/-- `_compile_literal` (query/compiler.py). -/
def compileLit : QLit → String
  | .sentinel q => q
  | .noneL => "(::)"
  | .boolL b => if b then "1b" else "0b"
  | .intL v => toString v
  | .strL s =>
      if isQDateStr s then s
      else if isQTimestampStr s then s
      else if isQTimeStr s then s
      else if pyIsIdentifier s then "`" ++ s
      else dquoteChar ++ s ++ dquoteChar
  | .listL xs =>
      match xs with
      | [] => "()"
      | _ => "(" ++ String.intercalate ";" (compileLitList xs) ++ ")"
  | .bytesL bs => "0x" ++ String.join (bs.map byteHex)

/-- Compiled items of a list literal. -/
def compileLitList : List QLit → List String
  | [] => []
  | x :: r => compileLit x :: compileLitList r

end

mutual

/-- `compile_expr` (query/compiler.py): q parse-tree notation. -/
def compileExpr : Expr → String
  | .col name => "`" ++ name
  | .lit v => compileLit v
  | .binop op l r =>
      "(" ++ op ++ ";" ++ compileExpr l ++ ";" ++ compileExpr r ++ ")"
  | .unop op e => "(" ++ op ++ ";" ++ compileExpr e ++ ")"
  | .call fn args =>
      "(" ++ fn ++ ";" ++ String.intercalate ";" (compileExprList args) ++ ")"
  | .agg fn column => "(" ++ fn ++ ";" ++ compileExpr column ++ ")"
  | .fby aggName c group =>
      "(fby;(enlist;" ++ aggName ++ ";" ++ compileExpr c ++ ");"
        ++ compileExpr group ++ ")"
  | .eachE inner adverb =>
      match inner with
      | .agg fn column =>
          if adverb = "each" then
            "(" ++ tickChar ++ ";" ++ fn ++ ";" ++ compileExpr column ++ ")"
          else
            "(" ++ adverb ++ ";" ++ fn ++ ";" ++ compileExpr column ++ ")"
      | e => "(" ++ adverb ++ ";" ++ compileExpr e ++ ")"

/-- Compiled items of an argument list. -/
def compileExprList : List Expr → List String
  | [] => []
  | x :: r => compileExpr x :: compileExprList r

end

/-- `_compile_dict`. -/
def compileDict (entries : List (String × String)) : String :=
  match entries with
  | [] => "()"
  | [(name, value)] => "(enlist `" ++ name ++ ")!(enlist " ++ value ++ ")"
  | _ =>
      "`" ++ String.intercalate "`" (entries.map Prod.fst) ++ "!("
        ++ String.intercalate ";" (entries.map Prod.snd) ++ ")"

/-- `compile_where`. -/
def compileWhere (clauses : List Expr) : String :=
  match clauses with
  | [] => "()"
  | [c] => "enlist " ++ compileExpr c
  | _ => "(" ++ String.intercalate ";" (clauses.map compileExpr) ++ ")"

/-- `_infer_agg_name`. -/
def inferAggName (fn : String) (column : Expr) : String :=
  match column with
  | .col name => fn ++ "_" ++ name
  | _ => fn

/-- `_infer_expr_name`. -/
def inferExprName : Expr → Option String
  | .col name => some name
  | .agg fn (.col name) => some (fn ++ "_" ++ name)
  | .call _ args =>
      (args.reverse.find? fun a => match a with
        | .col _ => true
        | _ => false).bind fun a =>
          match a with
          | .col name => some name
          | _ => none
  | _ => none

/-- `compile_by` entries accumulator (`x{len(entries)}` fallback names
use the running entry count). -/
def byEntries : List Expr → Nat → List (String × String)
  | [], _ => []
  | e :: rest, k =>
      match e with
      | .col name => (name, "`" ++ name) :: byEntries rest (k + 1)
      | _ =>
          let compiled := compileExpr e
          let name := (inferExprName e).getD ("x" ++ toString k)
          (name, compiled) :: byEntries rest (k + 1)

/-- `compile_by`. -/
def compileBy (byExprs : List Expr) (named : List (String × Expr)) : String :=
  match byExprs, named with
  | [], [] => "0b"
  | _, _ =>
    compileDict (byEntries byExprs 0
      ++ named.map fun (aliasN, e) => (aliasN, compileExpr e))

/-- `compile_select_columns`. -/
def compileSelectColumns (columns : List Expr)
    (named : List (String × Expr)) : String :=
  match columns, named with
  | [], [] => "()"
  | columns, named =>
    let fromCols := columns.map fun c =>
      match c with
      | .col name => (name, "`" ++ name)
      | .agg fn column => (inferAggName fn column, compileExpr (.agg fn column))
      | e =>
          let compiled := compileExpr e
          ((inferExprName e).getD compiled, compiled)
    compileDict (fromCols
      ++ named.map fun (aliasN, e) => (aliasN, compileExpr e))

/-- `compile_functional_select` (by_named is `None` from
`SelectQuery.compile`). -/
def compileFunctionalSelect (table : String) (whereCs : List Expr)
    (byExprs : List Expr) (columns : List Expr)
    (named : List (String × Expr)) : String :=
  "?[" ++ table ++ ";" ++ compileWhere whereCs ++ ";"
    ++ compileBy byExprs [] ++ ";"
    ++ compileSelectColumns columns named ++ "]"

/-!  ## Query builder state (query/select.py, `SelectQuery`)

The builder's mutable attributes.  Each combinator is modelled as a
function from the receiver's state to the pair
(receiver state after the call, state of the returned builder);
the source mutates `self` and returns `self`, so both components are
the extended state. -/

structure SelectState where
  tableName : String
  columns : List Expr
  named : List (String × Expr)
  whereCs : List Expr
  byCs : List Expr
  limitN : Option Int

/-- `SelectQuery.where(*conditions)`: `self._where.extend(conditions);
return self`. -/
def selectWhere (st : SelectState) (conditions : List Expr) :
    SelectState × SelectState :=
  let s2 := { st with whereCs := st.whereCs ++ conditions }
  (s2, s2)

/-- `SelectQuery.by(*columns)`: `self._by.extend(columns); return self`. -/
def selectBy (st : SelectState) (columns : List Expr) :
    SelectState × SelectState :=
  let s2 := { st with byCs := st.byCs ++ columns }
  (s2, s2)

/-- `SelectQuery.limit(n)`: `self._limit_n = n; return self`. -/
def selectLimit (st : SelectState) (n : Int) :
    SelectState × SelectState :=
  let s2 := { st with limitN := some n }
  (s2, s2)

/-- `SelectQuery.compile`. -/
def selectCompile (st : SelectState) : String :=
  let q := compileFunctionalSelect st.tableName st.whereCs st.byCs
    st.columns st.named
  match st.limitN with
  | none => q
  | some n => toString n ++ "#(" ++ q ++ ")"

/-!  ## Expr operator overloads (query/expressions.py, `Expr.__eq__`
and friends)

Python's `other: Any` argument is either an expression node or a host
value wrapped by `_wrap` into a `Literal`. -/

inductive PyArg where
  | ex (e : Expr)
  | val (v : QLit)

/-- `_wrap`. -/
def wrapArg : PyArg → Expr
  | .ex e => e
  | .val v => .lit v

/-- `Expr.__eq__`: always builds `BinOp('=', self, _wrap(other))`. -/
def exprEq (a : Expr) (b : PyArg) : Expr := .binop "=" a (wrapArg b)

/-- `Expr.__ne__`: always builds `BinOp('<>', self, _wrap(other))`. -/
def exprNe (a : Expr) (b : PyArg) : Expr := .binop "<>" a (wrapArg b)

/-- `Expr.__gt__`. -/
def exprGt (a : Expr) (b : PyArg) : Expr := .binop ">" a (wrapArg b)

/-- `Expr.__lt__`. -/
def exprLt (a : Expr) (b : PyArg) : Expr := .binop "<" a (wrapArg b)

/-!  ## Concrete messages used in the evaluations below -/

/-- The spec's claimed byte sequence for serialising the host integer
42 (scenario 2 of §8): `01 02 00 00 0E 00 00 00 F9 2A …`. -/
def claimedInt42Bytes : List Nat :=
  [1, 2, 0, 0, 14, 0, 0, 0, 249, 42, 0, 0, 0, 0, 0, 0, 0]

/-- The bytes `serialize_message(42, SYNC_MSG)` actually produces:
msg_type byte 0x01 (SYNC) and total length 17 = 0x11. -/
def actualInt42Bytes : List Nat :=
  [1, 1, 0, 0, 17, 0, 0, 0, 249, 42, 0, 0, 0, 0, 0, 0, 0]

/-- A well-formed little-endian response message whose body is the
mixed list of twenty host integers 42 (tag 0, attr, count 20, then
twenty `0xF9`-tagged longs); 194 bytes, genuinely compressible. -/
def msg20x42 : List Nat :=
  [1, 2, 0, 0] ++ le32 194 ++ [0, 0, 20, 0, 0, 0]
    ++ (List.replicate 20 [249, 42, 0, 0, 0, 0, 0, 0, 0]).flatten

/-- Its decoded host value. -/
def val20x42 : PyVal := .list (List.replicate 20 (.int 42))

/-- The compressed-message header the server would send for the
compressed form of `msg20x42` (compressed flag at byte 2). -/
def hdr20x42C : List Nat :=
  [1, 2, 1, 0] ++ le32 (8 + (compressM msg20x42 1).length)

/-- A 24-byte well-formed sync message (16 zero body bytes, full of
compressible byte pairs) — shorter than the compressor's 44-byte
minimum, so `compress` returns it unchanged. -/
def msg24 : List Nat := [1, 1, 0, 0] ++ le32 24 ++ List.replicate 16 0

/-- A 48-byte well-formed sync message with an all-zero body;
`compress` genuinely compresses it. -/
def msg48 : List Nat := [1, 1, 0, 0] ++ le32 48 ++ List.replicate 40 0

/-- C4, counterexample: serialising the host integer 42 as a sync
message does not produce the spec's byte sequence
`01 02 00 00 0E 00 00 00 F9 2A …` (the msg_type byte is 0x01, not
0x02, and the length field is 17 = 0x11, not 14 = 0x0E). -/
theorem c4_counterexample :
    serializeMessage (.int 42) 1 ≠ .ok claimedInt42Bytes := by
  rw [show serializeMessage (.int 42) 1 = .ok actualInt42Bytes from rfl]
  simp [actualInt42Bytes, claimedInt42Bytes]

/-- C4, amended: serialising 42 produces
`01 01 00 00 11 00 00 00 F9 2A 00 00 00 00 00 00 00` (msg_type 0x01 =
sync, little-endian length 17, tag 0xF9 = 256−7, 8-byte LE 42); and
deserialising the spec's claimed buffer still yields 42, because the
deserializer ignores the header's length field and msg_type when
decoding the payload. -/
theorem c4_amended :
    serializeMessage (.int 42) 1 = .ok actualInt42Bytes ∧
      deserializeMessage claimedInt42Bytes = .ok (2, .int 42) ∧
      deserializeMessage actualInt42Bytes = .ok (1, .int 42) :=
  ⟨rfl, rfl, rfl⟩

/-- C10: `Expr.__eq__` and `Expr.__ne__` always build `BinOp` syntax
nodes (`'='` and `'<>'`), never a host boolean, for every pair of
operands — including two identical `Column` nodes, so host equality
comparison never tests structural equality. -/
theorem c10_expr_eq_builds_binop :
    (∀ (a : Expr) (b : PyArg),
        exprEq a b = .binop "=" a (wrapArg b) ∧
        exprNe a b = .binop "<>" a (wrapArg b)) ∧
    (∀ name : String,
        exprEq (.col name) (.ex (.col name))
          = .binop "=" (.col name) (.col name)) :=
  ⟨fun _ _ => ⟨rfl, rfl⟩, fun _ => rfl⟩

/-- C9, counterexample: `where` mutates the receiving builder — after
`q.where(p)` on a builder with an empty clause list, the receiver's
state has gained the clause, so the original builder is not left
unchanged. -/
theorem c9_counterexample :
    (selectWhere ⟨"trade", [], [], [], [], none⟩ [.col "p"]).1
      ≠ ⟨"trade", [], [], [], [], none⟩ := by
  intro h
  have h2 := congrArg SelectState.whereCs h
  simp [selectWhere] at h2

/-- C9, amended: each combinator (`where`, `by`, `limit`) mutates the
receiver in place and returns that same builder (receiver state after
the call = state of the returned builder); `where`/`by` only append to
the clause lists and `limit` overwrites the limit field, all other
state being preserved. -/
theorem c9_amended :
    ∀ (st : SelectState) (conds cols : List Expr) (n : Int),
      ((selectWhere st conds).1 = (selectWhere st conds).2 ∧
        (selectWhere st conds).1.whereCs = st.whereCs ++ conds ∧
        (selectWhere st conds).1.tableName = st.tableName ∧
        (selectWhere st conds).1.columns = st.columns ∧
        (selectWhere st conds).1.named = st.named ∧
        (selectWhere st conds).1.byCs = st.byCs ∧
        (selectWhere st conds).1.limitN = st.limitN) ∧
      ((selectBy st cols).1 = (selectBy st cols).2 ∧
        (selectBy st cols).1.byCs = st.byCs ++ cols ∧
        (selectBy st cols).1.whereCs = st.whereCs ∧
        (selectBy st cols).1.limitN = st.limitN) ∧
      ((selectLimit st n).1 = (selectLimit st n).2 ∧
        (selectLimit st n).1.limitN = some n ∧
        (selectLimit st n).1.whereCs = st.whereCs ∧
        (selectLimit st n).1.byCs = st.byCs) :=
  fun _ _ _ _ =>
    ⟨⟨rfl, rfl, rfl, rfl, rfl, rfl, rfl⟩,
     ⟨rfl, rfl, rfl, rfl⟩, ⟨rfl, rfl, rfl, rfl⟩⟩

/-- C6: the retry wrapper.  (a) With `max_retries = 3`, a callable
raising a retryable error on the first two attempts and succeeding on
the third returns that result after exactly three invocations; (b) a
callable always raising a retryable error raises after exactly four
invocations; (c) a non-retryable error propagates on the first
invocation, for any `max_retries`. -/
theorem c6_retry :
    (∀ (α : Type) (f : Nat → Except RtErr α) (e0 e1 : RtErr) (r : α),
        e0.retryable = true → e1.retryable = true →
        f 0 = .error e0 → f 1 = .error e1 → f 2 = .ok r →
        retrySync f 3 = (.ok r, 3)) ∧
    (∀ (α : Type) (f : Nat → Except RtErr α) (e : Nat → RtErr),
        (∀ n, (e n).retryable = true) → (∀ n, f n = .error (e n)) →
        retrySync f 3 = (.error (e 3), 4)) ∧
    (∀ (α : Type) (f : Nat → Except RtErr α) (e : RtErr) (maxR : Nat),
        e.retryable = false → f 0 = .error e →
        retrySync f maxR = (.error e, 1)) := by
  refine ⟨?_, ?_, ?_⟩
  · intro α f e0 e1 r hr0 hr1 h0 h1 h2
    simp [retrySync, retryLoop, h0, h1, h2, hr0, hr1]
  · intro α f e hr hf
    simp [retrySync, retryLoop, hf 0, hf 1, hf 2, hf 3,
      hr 0, hr 1, hr 2, hr 3]
  · intro α f e maxR hr h0
    cases maxR <;> simp [retrySync, retryLoop, h0, hr]

/-- A callable failing retryably on attempts 0 and 1 and succeeding on
attempt 2. -/
def rtOkAt2 : Nat → Except RtErr Nat :=
  fun n => if n < 2 then .error ⟨true, 0⟩ else .ok 7

/-- A callable that always fails retryably. -/
def rtAlways : Nat → Except RtErr Nat := fun _ => .error ⟨true, 5⟩

/-- A callable that fails with a non-retryable error. -/
def rtNonRetry : Nat → Except RtErr Nat := fun _ => .error ⟨false, 9⟩

/-- C6 witness: the three scenarios at concrete callables. -/
theorem c6_witness :
    retrySync rtOkAt2 3 = (.ok 7, 3) ∧
    retrySync rtAlways 3 = (.error ⟨true, 5⟩, 4) ∧
    retrySync rtNonRetry 3 = (.error ⟨false, 9⟩, 1) :=
  ⟨c6_retry.1 Nat rtOkAt2 ⟨true, 0⟩ ⟨true, 0⟩ 7 rfl rfl rfl rfl rfl,
   c6_retry.2.1 Nat rtAlways (fun _ => ⟨true, 5⟩) (fun _ => rfl) (fun _ => rfl),
   c6_retry.2.2 Nat rtNonRetry ⟨false, 9⟩ 3 rfl rfl⟩

/-!  Pool invariant helpers. -/

/-- One pool step keeps `size ≤ max`. -/
theorem poolStep_size_le (maxS : Nat) (chk : Bool) (st : PoolState)
    (op : PoolOp) (h : st.size ≤ (maxS : Int)) :
    (poolStep maxS chk st op).size ≤ (maxS : Int) := by
  cases op with
  | acquire =>
      simp only [poolStep, poolAcquire]
      split
      · exact h
      · split
        · split <;> exact h
        · split
          · simp only []
            omega
          · exact h
  | release b =>
      simp only [poolStep, poolRelease]
      split
      · exact h
      · split
        · split <;> exact h
        · simp only []
          omega
  | close =>
      simp only [poolStep, poolClose]
      exact Int.ofNat_nonneg maxS

/-- One pool step keeps every idle connection's open flag true. -/
theorem poolStep_idle_true (maxS : Nat) (chk : Bool) (st : PoolState)
    (op : PoolOp) (h : ∀ b ∈ st.idle, b = true) :
    ∀ b ∈ (poolStep maxS chk st op).idle, b = true := by
  cases op with
  | acquire =>
      simp only [poolStep, poolAcquire]
      split
      · exact h
      · split
        · rename_i c rest heq
          have hrest : ∀ b ∈ rest, b = true := by
            intro b hb
            exact h b (heq ▸ List.mem_cons_of_mem c hb)
          split <;> exact hrest
        · split <;> exact h
  | release b =>
      simp only [poolStep, poolRelease]
      split
      · exact h
      · split
        · rename_i hbt
          split
          · intro x hx
            rcases List.mem_append.mp hx with hx | hx
            · exact h x hx
            · simp only [List.mem_singleton] at hx
              subst hx
              exact hbt
          · exact h
        · exact h
  | close =>
      intro b hb
      simp [poolStep, poolClose] at hb

/-- One pool step keeps a closed pool closed. -/
theorem poolStep_closed (maxS : Nat) (chk : Bool) (st : PoolState)
    (op : PoolOp) (h : st.closed = true) :
    (poolStep maxS chk st op).closed = true := by
  cases op with
  | acquire => simp only [poolStep, poolAcquire, h, if_true]
  | release b => simp only [poolStep, poolRelease, h, if_true]
  | close => rfl

/-- Runs preserve `size ≤ max`. -/
theorem poolRun_size_le (maxS : Nat) (chk : Bool) (ops : List PoolOp)
    (st : PoolState) (h : st.size ≤ (maxS : Int)) :
    (poolRun maxS chk st ops).size ≤ (maxS : Int) := by
  induction ops generalizing st with
  | nil => exact h
  | cons op ops ih => exact ih _ (poolStep_size_le maxS chk st op h)

/-- Runs preserve the all-open idle queue invariant. -/
theorem poolRun_idle_true (maxS : Nat) (chk : Bool) (ops : List PoolOp)
    (st : PoolState) (h : ∀ b ∈ st.idle, b = true) :
    ∀ b ∈ (poolRun maxS chk st ops).idle, b = true := by
  induction ops generalizing st with
  | nil => exact h
  | cons op ops ih => exact ih _ (poolStep_idle_true maxS chk st op h)

/-- Runs preserve closedness. -/
theorem poolRun_closed (maxS : Nat) (chk : Bool) (ops : List PoolOp)
    (st : PoolState) (h : st.closed = true) :
    (poolRun maxS chk st ops).closed = true := by
  induction ops generalizing st with
  | nil => exact h
  | cons op ops ih => exact ih _ (poolStep_closed maxS chk st op h)

/-- C5: pool invariants.  (a) For every interleaving of operations on
a pool initialised with `min_size ≤ max_size = k`, the connection
count never exceeds `k`; (b) every connection in the idle queue was
open when enqueued (the queue holds only open flags); (c) releasing a
non-open connection only decrements the count (it is never enqueued);
(d) after `close`, every subsequent `acquire` fails with `PoolError`,
whatever operations happen in between. -/
theorem c5_pool_invariants :
    (∀ (minS maxS : Nat) (chk : Bool) (ops : List PoolOp),
        minS ≤ maxS →
        (poolRun maxS chk (poolInit minS) ops).size ≤ (maxS : Int)) ∧
    (∀ (minS maxS : Nat) (chk : Bool) (ops : List PoolOp),
        ∀ b ∈ (poolRun maxS chk (poolInit minS) ops).idle, b = true) ∧
    (∀ (maxS : Nat) (st : PoolState), st.closed = false →
        poolRelease maxS st false = { st with size := st.size - 1 }) ∧
    (∀ (minS maxS : Nat) (chk : Bool) (pre ops : List PoolOp),
        (poolAcquire maxS chk
          (poolRun maxS chk
            (poolClose (poolRun maxS chk (poolInit minS) pre)) ops)).2
          = .errPool) := by
  refine ⟨?_, ?_, ?_, ?_⟩
  · intro minS maxS chk ops hmm
    exact poolRun_size_le maxS chk ops _ (by simp [poolInit]; omega)
  · intro minS maxS chk ops
    exact poolRun_idle_true maxS chk ops _ (by
      intro b hb
      simpa using List.eq_of_mem_replicate hb)
  · intro maxS st h
    simp [poolRelease, h]
  · intro minS maxS chk pre ops
    have hcl : (poolRun maxS chk
        (poolClose (poolRun maxS chk (poolInit minS) pre)) ops).closed
        = true :=
      poolRun_closed maxS chk ops _ rfl
    simp [poolAcquire, hcl]

/-- C5 witness: a concrete interleaving with `min = 1 ≤ max = 2`. -/
theorem c5_witness :
    (poolRun 2 true (poolInit 1)
        [.acquire, .acquire, .acquire, .release true, .release false]).size
      ≤ (2 : Int) ∧
    (∀ b ∈ (poolRun 2 true (poolInit 1)
        [.acquire, .release true, .release true]).idle, b = true) ∧
    poolRelease 2 ⟨1, [], false⟩ false = ⟨0, [], false⟩ ∧
    (poolAcquire 2 true (poolRun 2 true
        (poolClose (poolRun 2 true (poolInit 1) [.acquire]))
        [.release true, .acquire])).2 = .errPool :=
  ⟨c5_pool_invariants.1 1 2 true _ (by omega),
   c5_pool_invariants.2.1 1 2 true _,
   c5_pool_invariants.2.2.1 2 ⟨1, [], false⟩ rfl,
   c5_pool_invariants.2.2.2 1 2 true [.acquire] [.release true, .acquire]⟩

set_option maxRecDepth 100000 in
/-- C3: receive paths on a compressed incoming message.  For the
concrete 194-byte response `msg20x42` (twenty 42s): uncompressed it
deserialises correctly; `compress` genuinely compresses it, and
`decompress(compressed, original_header)` — the call the spec
prescribes — recovers the message exactly; yet the sync receive path
(which never decompresses) fails to decode it, and the async receive
path (which calls `decompress(payload)` without passing the header, so
positions 0..7 stay zero and the endian byte reads big-endian) fails
as well. -/
theorem c3_receive_paths :
    deserializeMessage msg20x42 = .ok (2, val20x42) ∧
    compressM msg20x42 1 ≠ msg20x42 ∧
    decompressM (compressM msg20x42 1) (msg20x42.take 8) = some msg20x42 ∧
    syncReceiveProcess hdr20x42C (compressM msg20x42 1)
      = .error .valueError ∧
    asyncReceiveProcess hdr20x42C (compressM msg20x42 1)
      = .error .indexError := by
  refine ⟨rfl, by decide, rfl, rfl, rfl⟩

/-- Dropping up to the middle segment. -/
theorem drop_seg (pre l post : List Nat) :
    (pre ++ l ++ post).drop pre.length = l ++ post := by
  rw [List.append_assoc, List.drop_left]

/-- A slice inside the middle segment. -/
theorem readBytesAt_seg (pre l post : List Nat) (nn : Nat)
    (h : nn ≤ l.length) :
    readBytesAt (pre ++ l ++ post) pre.length nn = l.take nn := by
  unfold readBytesAt
  rw [drop_seg, List.take_append_of_le_length h]

/-- `struct.unpack_from` inside the middle segment. -/
theorem unpackU_seg (w : Nat) (pre l post : List Nat) (h : w ≤ l.length) :
    unpackU true w (pre ++ l ++ post) pre.length
      = .ok (natOfLE (l.take w)) := by
  unfold unpackU
  rw [readBytesAt_seg pre l post w h, if_pos (by simp; omega)]
  rfl

theorem unpackI32_seg (pre l post : List Nat) (h : 4 ≤ l.length) :
    unpackI32 true (pre ++ l ++ post) pre.length
      = .ok (toSigned 4 (natOfLE (l.take 4))) := by
  unfold unpackI32
  rw [unpackU_seg 4 pre l post h]
  rfl

/-- Re-associating a segment split at `k`. -/
theorem seg_shift (pre l post : List Nat) (k : Nat) :
    pre ++ l ++ post = (pre ++ l.take k) ++ l.drop k ++ post := by
  simp [List.append_assoc]

mutual

/-- Structural size for the strong induction below. -/
def pvSize : PyVal → Nat
  | .list xs => 1 + pvListSize xs
  | .dictV ks vs => 1 + pvListSize ks + pvListSize vs
  | .qvec _ _ xs => 1 + pvListSize xs
  | .lambdaDesc _ b => 1 + pvSize b
  | _ => 1

def pvListSize : List PyVal → Nat
  | [] => 1
  | x :: r => 1 + pvSize x + pvListSize r

end

mutual

/-- Deserializer fuel needed for a value at a `.one` request. -/
def pvBound : PyVal → Nat
  | .list xs => 1 + pvListBound xs
  | .dictV ks vs => 1 + max (1 + pvListBound ks) (1 + pvListBound vs)
  | _ => 1

/-- Fuel needed for a `.many` request over these items. -/
def pvListBound : List PyVal → Nat
  | [] => 1
  | x :: r => 1 + max (pvBound x) (pvListBound r)

end

mutual

/-- The value universe over which the amended codec round-trip is
proved: host booleans; 64-bit ints excluding the long-null bit
pattern; doubles excluding NaN patterns; strings; non-zero 16-byte
guids; typed nulls except BOOLEAN (decodes to `False`), CHAR
(serialization raises) and SYMBOL (decodes to `''`); and Python lists
and equal-length dicts of such values (list/dict counts within int32
as the wire demands). -/
def goodVal : PyVal → Bool
  | .bool _ => true
  | .int v =>
      decide (-(2 : Int) ^ 63 ≤ v) && decide (v < 2 ^ 63) &&
        decide (v ≠ -(2 : Int) ^ 63)
  | .float bits => decide (bits < 2 ^ 64) && !(isNaN64 bits)
  | .str u => decide (u.length < 2 ^ 31)
  | .guid g => decide (g.length = 16) && decide (g ≠ List.replicate 16 0)
  | .qnull tc =>
      decide (tc = 2 ∨ tc = 4 ∨ tc = 5 ∨ tc = 6 ∨ tc = 7 ∨ tc = 8
        ∨ tc = 9 ∨ (12 ≤ tc ∧ tc ≤ 19))
  | .list xs => decide (xs.length < 2 ^ 31) && goodListVal xs
  | .dictV ks vs =>
      decide (ks.length = vs.length) && decide (ks.length < 2 ^ 31) &&
        goodListVal ks && goodListVal vs
  | _ => false

def goodListVal : List PyVal → Bool
  | [] => true
  | x :: r => goodVal x && goodListVal r

end

/-- The numeric-comparison predicates of the C8 scenario. -/
def c8p : Expr := exprGt (.col "price") (.val (.intL 100))

def c8q : Expr := exprLt (.col "size") (.val (.intL 50))

/-- A bare `trade` select builder state. -/
def c8base : SelectState := ⟨"trade", [], [], [], [], none⟩

/-- C8, counterexample: for the numeric comparisons `price > 100` and
`size < 50`, `compile(Q.where(p).where(q))` and
`compile(Q.where(q).where(p))` are different strings — the where
clauses are emitted in call order. -/
theorem c8_counterexample :
    selectCompile (selectWhere (selectWhere c8base [c8p]).2 [c8q]).2
      ≠ selectCompile (selectWhere (selectWhere c8base [c8q]).2 [c8p]).2 := by
  decide

/-- `compile_where` depends only on the compiled clause strings. -/
theorem compileWhere_congr (l1 l2 : List Expr)
    (h : l1.map compileExpr = l2.map compileExpr) :
    compileWhere l1 = compileWhere l2 := by
  match l1, l2 with
  | [], [] => rfl
  | [], _ :: _ => exact absurd h (by simp)
  | _ :: _, [] => exact absurd h (by simp)
  | [a], [b] =>
      simp only [List.map, List.cons.injEq] at h
      simp [compileWhere, h.1]
  | [a], b :: b2 :: bs =>
      have := congrArg List.length h
      simp at this
  | a :: a2 :: as, [b] =>
      have := congrArg List.length h
      simp at this
  | a :: a2 :: as, b :: b2 :: bs =>
      simp [compileWhere, h]

/-- C8, amended: `compile` is deterministic, and the where list
records the clauses in call order: `Q.where(p).where(q)` appends
`[p, q]` to the builder's clause list, a two-clause list compiles to
`"(⟨p⟩;⟨q⟩)"`, so swapping the two calls swaps the clause strings in
the output; the two compilations coincide exactly when the clauses
compile to the same string (e.g. `p = q`), not for arbitrary numeric
comparisons. -/
theorem c8_amended :
    (∀ st : SelectState, selectCompile st = selectCompile st) ∧
    (∀ (st : SelectState) (p q : Expr),
        (selectWhere (selectWhere st [p]).2 [q]).2
          = { st with whereCs := st.whereCs ++ [p, q] }) ∧
    (∀ p q : Expr, compileWhere [p, q]
        = "(" ++ compileExpr p ++ ";" ++ compileExpr q ++ ")") ∧
    (∀ (st : SelectState) (p q : Expr), compileExpr p = compileExpr q →
        selectCompile (selectWhere (selectWhere st [p]).2 [q]).2
          = selectCompile (selectWhere (selectWhere st [q]).2 [p]).2) := by
  refine ⟨fun _ => rfl, ?_, ?_, ?_⟩
  · intro st p q
    simp [selectWhere]
  · intro p q
    simp [compileWhere, String.intercalate, String.intercalate.go,
      String.append_assoc]
  · intro st p q hpq
    have hmap : (st.whereCs ++ [p] ++ [q]).map compileExpr
        = (st.whereCs ++ [q] ++ [p]).map compileExpr := by
      simp [hpq]
    simp only [selectCompile, selectWhere, compileFunctionalSelect]
    rw [compileWhere_congr _ _ hmap]

/-- C8 witness: the clause-equality case at a concrete builder —
`where(p)` twice in both orders gives identical strings. -/
theorem c8_witness :
    selectCompile (selectWhere (selectWhere c8base [c8p]).2 [c8p]).2
      = selectCompile (selectWhere (selectWhere c8base [c8p]).2 [c8p]).2 :=
  c8_amended.2.2.2 c8base c8p c8p rfl

set_option maxRecDepth 100000 in
/-- C1, counterexample: the 24-byte message `msg24` (16 zero body
bytes — the same highly compressible pattern that `compress` does
compress at 48 bytes, last conjunct) has length ≥ 18, yet
`compress` returns it unchanged (its output buffer `len//2 = 12 < 22`
aborts), and `decompress(compress(m), header_of(m))` then
misinterprets the raw message as a compressed payload and does not
return the message. -/
theorem c1_counterexample :
    msg24.length = 24 ∧
    compressM msg24 1 = msg24 ∧
    decompressM (compressM msg24 1) (msg24.take 8) ≠ some msg24 ∧
    compressM msg48 1 ≠ msg48 := by
  refine ⟨rfl, by decide, by decide, by decide⟩

theorem length_setByte (l : List Nat) (i v : Nat) :
    (setByte l i v).length = l.length := by
  simp [setByte]

theorem byteAt_setByte_self (l : List Nat) (i v : Nat) (h : i < l.length) :
    byteAt (setByte l i v) i = v := by
  simp [setByte, byteAt, List.get?_set_eq, h]

theorem byteAt_setByte_ne (l : List Nat) (i v j : Nat) (h : j ≠ i) :
    byteAt (setByte l i v) j = byteAt l j := by
  simp only [setByte, byteAt, List.get?_eq_getElem?]
  rw [List.getElem?_set_ne (Ne.symm h)]

theorem setByteB_lt (l : List Nat) (i v : Nat) (h : i < l.length) :
    setByteB l i v = some (setByte l i v) := by
  simp [setByteB, setByte, h]

theorem getByteB_lt (l : List Nat) (i : Nat) (h : i < l.length) :
    getByteB l i = some (byteAt l i) := by
  simp only [getByteB, byteAt]
  rw [List.get?_eq_getElem? l i, List.getElem?_eq_getElem h]
  rfl

theorem byteAt_take (l : List Nat) (k j : Nat) (h : j < k) :
    byteAt (l.take k) j = byteAt l j := by
  simp only [byteAt]
  rw [List.get?_eq_getElem?, List.get?_eq_getElem?, List.getElem?_take]
  simp [h]

theorem byteAt_replicate (n j v : Nat) :
    byteAt (List.replicate n v) j = if j < n then v else 0 := by
  simp only [byteAt]
  rw [List.get?_eq_getElem?, List.getElem?_replicate]
  by_cases h : j < n <;> simp [h]

theorem listEqOfByteAt (l1 l2 : List Nat) (hl : l1.length = l2.length)
    (h : ∀ j, j < l1.length → byteAt l1 j = byteAt l2 j) : l1 = l2 := by
  apply List.ext_getElem?
  intro j
  by_cases hj : j < l1.length
  · rw [List.getElem?_eq_getElem hj, List.getElem?_eq_getElem (hl ▸ hj)]
    have hb := h j hj
    simp only [byteAt, List.get?_eq_getElem?,
      List.getElem?_eq_getElem hj, List.getElem?_eq_getElem (hl ▸ hj),
      Option.getD_some] at hb
    simp [hb]
  · rw [List.getElem?_eq_none (by omega), List.getElem?_eq_none (by omega)]

/-!  ## matchExt properties -/

theorem matchExt_le (y : List Nat) (p s : Nat) :
    ∀ b, matchExt y p s b ≤ b := by
  intro b
  induction b generalizing p s with
  | zero => simp [matchExt]
  | succ b ih =>
      simp only [matchExt]
      split
      · have := ih (p+1) (s+1)
        omega
      · omega

theorem matchExt_agree (y : List Nat) :
    ∀ b p s m, m < matchExt y p s b →
      byteAt y (p + m) = byteAt y (s + m) := by
  intro b
  induction b with
  | zero => intro p s m h; simp [matchExt] at h
  | succ b ih =>
      intro p s m h
      simp only [matchExt] at h
      split at h
      · match m with
        | 0 => simpa using ‹byteAt y p = byteAt y s›
        | m+1 =>
            have := ih (p+1) (s+1) m (by omega)
            rw [show p + (m+1) = p + 1 + m from by omega,
              show s + (m+1) = s + 1 + m from by omega]
            exact this
      · omega
/-!  ## Control-byte bit arithmetic -/

theorem lor_two_pow_of_lt (k f : Nat) (hf : f < 2^k) :
    f ||| 2^k = f + 2^k := by
  apply Nat.eq_of_testBit_eq
  intro j
  rw [Nat.testBit_lor]
  rw [show f + 2^k = 2^k * 1 + f from by omega]
  rw [Nat.testBit_mul_pow_two_add 1 hf]
  rcases Nat.lt_trichotomy j k with hj | hj | hj
  · simp [Nat.testBit_two_pow_of_ne (by omega : k ≠ j), if_pos hj]
  · subst hj
    simp [Nat.testBit_two_pow_self, Nat.testBit_lt_two_pow hf]
  · rw [if_neg (by omega)]
    rw [Nat.testBit_two_pow_of_ne (by omega : k ≠ j)]
    rw [Nat.testBit_lt_two_pow (show f < 2^j from lt_of_lt_of_le hf
      (Nat.pow_le_pow_right (by norm_num) (by omega)))]
    rw [Nat.testBit_to_div_mod]
    rw [Nat.div_eq_of_lt (show 1 < 2^(j-k) from by
      have : 0 < j - k := by omega
      calc 1 < 2^1 := by norm_num
      _ ≤ 2^(j-k) := Nat.pow_le_pow_right (by norm_num) (by omega))]
    simp

theorem and_two_pow_add (k f r : Nat) (hf : f < 2^k) :
    (f + 2^k * r) &&& 2^k = if r % 2 = 1 then 2^k else 0 := by
  apply Nat.eq_of_testBit_eq
  intro j
  rw [Nat.testBit_and]
  rw [show f + 2^k * r = 2^k * r + f from by omega]
  rw [Nat.testBit_mul_pow_two_add r hf]
  by_cases hj : j = k
  · subst hj
    rw [if_neg (by omega), Nat.sub_self, Nat.testBit_two_pow_self]
    rw [show Nat.testBit r 0 = decide (r % 2 = 1) from by
      rw [Nat.testBit_to_div_mod]
      simp]
    by_cases hr : r % 2 = 1 <;>
      simp [hr, Nat.testBit_two_pow_self, Nat.testBit_to_div_mod]
  · rw [Nat.testBit_two_pow_of_ne (by omega : k ≠ j)]
    by_cases hr : r % 2 = 1 <;>
      simp [hr, Nat.testBit_two_pow_of_ne (by omega : k ≠ j),
        Nat.zero_testBit]

/-!  ## compLoop structural lemmas -/

theorem compLoop_dMono (y : List Nat) (t e : Nat) :
    ∀ fuel c d s i f s0 h0 h out a outF dF,
    compLoop y t e fuel c d s i f s0 h0 h out a = some (outF, dF) →
    d ≤ dF := by
  intro fuel
  induction fuel with
  | zero =>
      intro c d s i f s0 h0 h out a outF dF hcomp
      simp [compLoop] at hcomp
  | succ fuel ih =>
      intro c d s i f s0 h0 h out a outF dF hcomp
      simp only [compLoop] at hcomp
      by_cases hs : s < t
      · rw [if_pos hs] at hcomp
        by_cases habort : i = 0 ∧ d > e - 17
        · rw [if_pos habort] at hcomp
          cases hcomp
        · rw [if_neg habort] at hcomp
          by_cases hi : i = 0 <;>
            simp only [hi, if_pos, if_neg, if_true, if_false,
              decide_True, decide_False, ite_true, ite_false] at hcomp
          · by_cases hnear : s > t - 3
            · rw [if_pos hnear] at hcomp
              have := ih _ _ _ _ _ _ _ _ _ _ _ _ hcomp
              omega
            · rw [if_neg hnear] at hcomp
              split at hcomp
              · have := ih _ _ _ _ _ _ _ _ _ _ _ _ hcomp
                omega
              · have := ih _ _ _ _ _ _ _ _ _ _ _ _ hcomp
                omega
          · by_cases hnear : s > t - 3
            · rw [if_pos hnear] at hcomp
              have := ih _ _ _ _ _ _ _ _ _ _ _ _ hcomp
              omega
            · rw [if_neg hnear] at hcomp
              split at hcomp
              · have := ih _ _ _ _ _ _ _ _ _ _ _ _ hcomp
                omega
              · have := ih _ _ _ _ _ _ _ _ _ _ _ _ hcomp
                omega
      · rw [if_neg hs] at hcomp
        split at hcomp
        · cases hcomp
        · cases hcomp
          omega

theorem compLoop_lenOut (y : List Nat) (t e : Nat) :
    ∀ fuel c d s i f s0 h0 h out a outF dF,
    compLoop y t e fuel c d s i f s0 h0 h out a = some (outF, dF) →
    outF.length = out.length := by
  intro fuel
  induction fuel with
  | zero =>
      intro c d s i f s0 h0 h out a outF dF hcomp
      simp [compLoop] at hcomp
  | succ fuel ih =>
      intro c d s i f s0 h0 h out a outF dF hcomp
      simp only [compLoop] at hcomp
      by_cases hs : s < t
      · rw [if_pos hs] at hcomp
        by_cases habort : i = 0 ∧ d > e - 17
        · rw [if_pos habort] at hcomp
          cases hcomp
        · rw [if_neg habort] at hcomp
          by_cases hi : i = 0 <;>
            simp only [hi, if_true, if_false, ite_true, ite_false] at hcomp <;>
            (by_cases hnear : s > t - 3
             · rw [if_pos hnear] at hcomp
               have := ih _ _ _ _ _ _ _ _ _ _ _ _ hcomp
               simpa [length_setByte] using this
             · rw [if_neg hnear] at hcomp
               split at hcomp
               · have := ih _ _ _ _ _ _ _ _ _ _ _ _ hcomp
                 simpa [length_setByte] using this
               · have := ih _ _ _ _ _ _ _ _ _ _ _ _ hcomp
                 simpa [length_setByte] using this)
      · rw [if_neg hs] at hcomp
        split at hcomp
        · cases hcomp
        · cases hcomp
          simp [length_setByte]

theorem compLoop_outLower (y : List Nat) (t e : Nat) :
    ∀ fuel c d s i f s0 h0 h out a outF dF,
    compLoop y t e fuel c d s i f s0 h0 h out a = some (outF, dF) →
    ∀ j, j < d → j ≠ c → byteAt outF j = byteAt out j := by
  intro fuel
  induction fuel with
  | zero =>
      intro c d s i f s0 h0 h out a outF dF hcomp
      simp [compLoop] at hcomp
  | succ fuel ih =>
      intro c d s i f s0 h0 h out a outF dF hcomp j hjd hjc
      simp only [compLoop] at hcomp
      by_cases hs : s < t
      · rw [if_pos hs] at hcomp
        by_cases habort : i = 0 ∧ d > e - 17
        · rw [if_pos habort] at hcomp
          cases hcomp
        · rw [if_neg habort] at hcomp
          by_cases hi : i = 0 <;>
            simp only [hi, if_true, if_false, ite_true, ite_false] at hcomp
          · by_cases hnear : s > t - 3
            · rw [if_pos hnear] at hcomp
              have := ih _ _ _ _ _ _ _ _ _ _ _ _ hcomp j (by omega)
                (by omega)
              rw [this, byteAt_setByte_ne _ _ _ _ (by omega),
                byteAt_setByte_ne _ _ _ _ hjc]
            · rw [if_neg hnear] at hcomp
              split at hcomp
              · have := ih _ _ _ _ _ _ _ _ _ _ _ _ hcomp j (by omega)
                  (by omega)
                rw [this, byteAt_setByte_ne _ _ _ _ (by omega),
                  byteAt_setByte_ne _ _ _ _ hjc]
              · have := ih _ _ _ _ _ _ _ _ _ _ _ _ hcomp j (by omega)
                  (by omega)
                rw [this, byteAt_setByte_ne _ _ _ _ (by omega),
                  byteAt_setByte_ne _ _ _ _ (by omega),
                  byteAt_setByte_ne _ _ _ _ hjc]
          · by_cases hnear : s > t - 3
            · rw [if_pos hnear] at hcomp
              have := ih _ _ _ _ _ _ _ _ _ _ _ _ hcomp j (by omega) hjc
              rw [this, byteAt_setByte_ne _ _ _ _ (by omega)]
            · rw [if_neg hnear] at hcomp
              split at hcomp
              · have := ih _ _ _ _ _ _ _ _ _ _ _ _ hcomp j (by omega) hjc
                rw [this, byteAt_setByte_ne _ _ _ _ (by omega)]
              · have := ih _ _ _ _ _ _ _ _ _ _ _ _ hcomp j (by omega) hjc
                rw [this, byteAt_setByte_ne _ _ _ _ (by omega),
                  byteAt_setByte_ne _ _ _ _ (by omega)]
      · rw [if_neg hs] at hcomp
        split at hcomp
        · cases hcomp
        · cases hcomp
          rw [byteAt_setByte_ne _ _ _ _ hjc]

/-- Final value of the pending control byte `out[c]`: a fresh group
(`i = 0`) flushes `f & 0xFF` there; mid-group (`i = 2^k`) the final
byte keeps the accumulated low bits `f` and only adds multiples of
`i`. -/
theorem compLoop_ctrl (y : List Nat) (t e : Nat) :
    ∀ fuel c d s i f s0 h0 h out a outF dF,
    compLoop y t e fuel c d s i f s0 h0 h out a = some (outF, dF) →
    c < d → c < out.length →
    ((i = 0 → byteAt outF c = f % 256) ∧
     (∀ k, k < 8 → i = 2^k → f < i →
        ∃ r, byteAt outF c = f + i * r)) := by
  intro fuel
  induction fuel with
  | zero =>
      intro c d s i f s0 h0 h out a outF dF hcomp
      simp [compLoop] at hcomp
  | succ fuel ih =>
      intro c d s i f s0 h0 h out a outF dF hcomp hcd hce
      simp only [compLoop] at hcomp
      by_cases hs : s < t
      · rw [if_pos hs] at hcomp
        by_cases habort : i = 0 ∧ d > e - 17
        · rw [if_pos habort] at hcomp
          cases hcomp
        · rw [if_neg habort] at hcomp
          by_cases hi : i = 0 <;>
            simp only [hi, if_true, if_false, ite_true, ite_false] at hcomp
          · constructor
            · intro _
              have hlow : ∀ c2 d2 s2 i2 f2 s02 h02 h2 out2 a2,
                  compLoop y t e fuel c2 d2 s2 i2 f2 s02 h02 h2 out2 a2
                    = some (outF, dF) → c < d2 → c ≠ c2 →
                  byteAt outF c = byteAt out2 c := by
                intro c2 d2 s2 i2 f2 s02 h02 h2 out2 a2 hrec hlt hne
                exact compLoop_outLower y t e fuel c2 d2 s2 i2 f2 s02 h02
                  h2 out2 a2 outF dF hrec c hlt hne
              by_cases hnear : s > t - 3
              · rw [if_pos hnear] at hcomp
                rw [hlow _ _ _ _ _ _ _ _ _ _ hcomp (by omega) (by omega)]
                rw [byteAt_setByte_ne _ _ _ _ (by omega)]
                exact byteAt_setByte_self _ _ _ hce
              · rw [if_neg hnear] at hcomp
                split at hcomp
                · rw [hlow _ _ _ _ _ _ _ _ _ _ hcomp (by omega) (by omega)]
                  rw [byteAt_setByte_ne _ _ _ _ (by omega)]
                  exact byteAt_setByte_self _ _ _ hce
                · rw [hlow _ _ _ _ _ _ _ _ _ _ hcomp (by omega) (by omega)]
                  rw [byteAt_setByte_ne _ _ _ _ (by omega),
                    byteAt_setByte_ne _ _ _ _ (by omega)]
                  exact byteAt_setByte_self _ _ _ hce
            · intro k hk hik hf
              exact absurd hik (by
                rw [hi]
                have : 0 < 2^k := Nat.pos_pow_of_pos k (by norm_num)
                omega)
          · constructor
            · intro h0eq
              exact absurd h0eq hi
            · intro k hk hik hf
              subst hik
              by_cases hk7 : k < 7
              · have hdouble : 2^k * 2 % 256 = 2^(k+1) := by
                  interval_cases k <;> decide
                by_cases hnear : s > t - 3
                · rw [if_pos hnear, hdouble] at hcomp
                  obtain ⟨r, hr⟩ := (ih _ _ _ _ _ _ _ _ _ _ _ _ hcomp
                    (by omega) (by simpa [length_setByte] using hce)).2
                    (k+1) (by omega) rfl (by
                      have : (2:Nat)^(k+1) = 2^k * 2 := by ring
                      omega)
                  exact ⟨2 * r, by rw [hr]; ring_nf⟩
                · rw [if_neg hnear] at hcomp
                  split at hcomp
                  · rw [hdouble] at hcomp
                    obtain ⟨r, hr⟩ := (ih _ _ _ _ _ _ _ _ _ _ _ _ hcomp
                      (by omega) (by simpa [length_setByte] using hce)).2
                      (k+1) (by omega) rfl (by
                        have : (2:Nat)^(k+1) = 2^k * 2 := by ring
                        omega)
                    exact ⟨2 * r, by rw [hr]; ring_nf⟩
                  · rw [hdouble, lor_two_pow_of_lt k f hf] at hcomp
                    obtain ⟨r, hr⟩ := (ih _ _ _ _ _ _ _ _ _ _ _ _ hcomp
                      (by omega) (by simpa [length_setByte] using hce)).2
                      (k+1) (by omega) rfl (by
                        have : (2:Nat)^(k+1) = 2^k * 2 := by ring
                        omega)
                    exact ⟨2 * r + 1, by rw [hr]; ring_nf⟩
              · have hk7e : k = 7 := by omega
                subst hk7e
                have hdouble : (2:Nat)^7 * 2 % 256 = 0 := by decide
                by_cases hnear : s > t - 3
                · rw [if_pos hnear, hdouble] at hcomp
                  have := (ih _ _ _ _ _ _ _ _ _ _ _ _ hcomp
                    (by omega) (by simpa [length_setByte] using hce)).1 rfl
                  exact ⟨0, by rw [this, Nat.mod_eq_of_lt (by omega)]; omega⟩
                · rw [if_neg hnear] at hcomp
                  split at hcomp
                  · rw [hdouble] at hcomp
                    have := (ih _ _ _ _ _ _ _ _ _ _ _ _ hcomp
                      (by omega) (by simpa [length_setByte] using hce)).1 rfl
                    exact ⟨0, by
                      rw [this, Nat.mod_eq_of_lt (by omega)]
                      omega⟩
                  · rw [hdouble, lor_two_pow_of_lt 7 f hf] at hcomp
                    have := (ih _ _ _ _ _ _ _ _ _ _ _ _ hcomp
                      (by omega) (by simpa [length_setByte] using hce)).1 rfl
                    exact ⟨1, by
                      rw [this, Nat.mod_eq_of_lt (by omega)]
                      omega⟩
      · rw [if_neg hs] at hcomp
        split at hcomp
        · cases hcomp
        · cases hcomp
          constructor
          · intro _
            exact byteAt_setByte_self _ _ _ hce
          · intro k hk hik hf
            subst hik
            have hpow : (2:Nat)^k ≤ 128 := by
              have h1 : (2:Nat)^k ≤ 2^7 :=
                Nat.pow_le_pow_right (by norm_num) (by omega)
              norm_num at h1
              exact h1
            refine ⟨0, ?_⟩
            rw [byteAt_setByte_self _ _ _ hce, Nat.mod_eq_of_lt (by omega)]
            omega

/-- Mask stepping: doubling a power-of-two mask mod 256. -/
theorem maskDouble (k : Nat) (hk : k < 8) :
    2^k * 2 % 256 = if k < 7 then 2^(k+1) else 0 := by
  interval_cases k <;> decide

/-- The final output cursor stays within the `e`-byte buffer: each
control group re-checks `d > e - 17`, then writes at most 17 bytes
(1 control + 8 iterations of at most 2 each). -/
theorem compLoop_dUB (y : List Nat) (t e : Nat) (he17 : 17 ≤ e) :
    ∀ fuel c d s i f s0 h0 h out a outF dF,
    compLoop y t e fuel c d s i f s0 h0 h out a = some (outF, dF) →
    d ≤ e →
    (i = 0 ∨ ∃ k, k < 8 ∧ i = 2^k ∧ d + 2*(8-k) ≤ e) →
    dF ≤ e := by
  intro fuel
  induction fuel with
  | zero =>
      intro c d s i f s0 h0 h out a outF dF hcomp
      simp [compLoop] at hcomp
  | succ fuel ih =>
      intro c d s i f s0 h0 h out a outF dF hcomp hde hm
      simp only [compLoop] at hcomp
      by_cases hs : s < t
      · rw [if_pos hs] at hcomp
        by_cases habort : i = 0 ∧ d > e - 17
        · rw [if_pos habort] at hcomp
          cases hcomp
        · rw [if_neg habort] at hcomp
          rcases hm with hi0 | ⟨k, hk, hik, hbud⟩
          · subst hi0
            simp only [if_true, ite_true] at hcomp
            have hd17 : d ≤ e - 17 := by
              rcases Nat.lt_or_ge (e - 17) d with hlt | hge
              · exact absurd ⟨rfl, hlt⟩ habort
              · exact hge
            have hstep : (1:Nat) * 2 % 256 = 2^1 := by norm_num
            by_cases hnear : s > t - 3
            · rw [if_pos hnear] at hcomp
              exact ih _ _ _ _ _ _ _ _ _ _ _ _ hcomp (by omega)
                (Or.inr ⟨1, by omega, hstep, by omega⟩)
            · rw [if_neg hnear] at hcomp
              split at hcomp
              · exact ih _ _ _ _ _ _ _ _ _ _ _ _ hcomp (by omega)
                  (Or.inr ⟨1, by omega, hstep, by omega⟩)
              · exact ih _ _ _ _ _ _ _ _ _ _ _ _ hcomp (by omega)
                  (Or.inr ⟨1, by omega, hstep, by omega⟩)
          · have hine : i ≠ 0 := by
              subst hik
              have : 0 < (2:Nat)^k := Nat.pos_pow_of_pos k (by norm_num)
              omega
            simp only [hine, if_false, ite_false] at hcomp
            have hmd := maskDouble k hk
            have hnext : ∀ dd, dd ≤ d + 2 →
                i * 2 % 256 = 0 ∨
                ∃ kk, kk < 8 ∧ i * 2 % 256 = 2^kk ∧ dd + 2*(8-kk) ≤ e := by
              intro dd hdd
              by_cases hk7 : k < 7
              · right
                refine ⟨k+1, by omega, by rw [hik, hmd, if_pos hk7], ?_⟩
                omega
              · left
                rw [hik, hmd, if_neg hk7]
            by_cases hnear : s > t - 3
            · rw [if_pos hnear] at hcomp
              exact ih _ _ _ _ _ _ _ _ _ _ _ _ hcomp (by omega)
                (hnext (d+1) (by omega))
            · rw [if_neg hnear] at hcomp
              split at hcomp
              · exact ih _ _ _ _ _ _ _ _ _ _ _ _ hcomp (by omega)
                  (hnext (d+1) (by omega))
              · exact ih _ _ _ _ _ _ _ _ _ _ _ _ hcomp (by omega)
                  (hnext (d+2) (by omega))
      · rw [if_neg hs] at hcomp
        split at hcomp
        · cases hcomp
        · cases hcomp
          exact hde

/-- All bytes the compressor ever writes are < 256 (given the source
bytes are). -/
theorem compLoop_outBytes (y : List Nat) (t e : Nat)
    (hyb : ∀ j, byteAt y j < 256) :
    ∀ fuel c d s i f s0 h0 h out a outF dF,
    compLoop y t e fuel c d s i f s0 h0 h out a = some (outF, dF) →
    (∀ j, byteAt out j < 256) →
    ∀ j, byteAt outF j < 256 := by
  intro fuel
  induction fuel with
  | zero =>
      intro c d s i f s0 h0 h out a outF dF hcomp
      simp [compLoop] at hcomp
  | succ fuel ih =>
      intro c d s i f s0 h0 h out a outF dF hcomp hob
      have hset : ∀ (l : List Nat) p v, (∀ j, byteAt l j < 256) → v < 256 →
          ∀ j, byteAt (setByte l p v) j < 256 := by
        intro l p v hl hv j
        by_cases hj : j = p
        · subst hj
          by_cases hp : j < l.length
          · rw [byteAt_setByte_self _ _ _ hp]
            exact hv
          · have hseq : setByte l j v = l := by
              unfold setByte
              exact List.set_eq_of_length_le (by omega)
            rw [hseq]
            exact hl j
        · rw [byteAt_setByte_ne _ _ _ _ hj]
          exact hl j
      simp only [compLoop] at hcomp
      by_cases hs : s < t
      · rw [if_pos hs] at hcomp
        by_cases habort : i = 0 ∧ d > e - 17
        · rw [if_pos habort] at hcomp
          cases hcomp
        · rw [if_neg habort] at hcomp
          by_cases hi : i = 0 <;>
            simp only [hi, if_true, if_false, ite_true, ite_false] at hcomp <;>
            [skip; skip] <;>
            (by_cases hnear : s > t - 3
             · rw [if_pos hnear] at hcomp
               refine ih _ _ _ _ _ _ _ _ _ _ _ _ hcomp ?_
               apply hset
               · first
                 | exact hob
                 | (apply hset
                    · exact hob
                    · exact Nat.mod_lt _ (by norm_num))
               · exact hyb s
             · rw [if_neg hnear] at hcomp
               split at hcomp
               · refine ih _ _ _ _ _ _ _ _ _ _ _ _ hcomp ?_
                 apply hset
                 · first
                   | exact hob
                   | (apply hset
                      · exact hob
                      · exact Nat.mod_lt _ (by norm_num))
                 · exact hyb s
               · refine ih _ _ _ _ _ _ _ _ _ _ _ _ hcomp ?_
                 apply hset
                 · apply hset
                   · first
                     | exact hob
                     | (apply hset
                        · exact hob
                        · exact Nat.mod_lt _ (by norm_num))
                   · exact Nat.mod_lt _ (by norm_num)
                 · have h1 := matchExt_le y (byteAt a ((byteAt y s ^^^
                     byteAt y (s+1)) % 256) + 2) (s+2)
                     (min (s + 2 + 255) t - (s+2))
                   omega)
      · rw [if_neg hs] at hcomp
        split at hcomp
        · cases hcomp
        · cases hcomp
          apply hset
          · exact hob
          · exact Nat.mod_lt _ (by norm_num)

/-!  ## Single-iteration step equations -/

theorem optBindOk {α β : Type} (a : α) (f : α → Option β) :
    (some a >>= f) = f a := rfl

/-- A fresh control group: flush the previous control byte, allocate
position `d`, and continue as a mid-group iteration with mask 1. -/
theorem compLoop_ctrl_eq (y : List Nat) (t e fuel c d s f s0 h0 h : Nat)
    (out a : List Nat) (hs : s < t) (hd : ¬ d > e - 17) :
    compLoop y t e (fuel+1) c d s 0 f s0 h0 h out a
      = compLoop y t e (fuel+1) d (d+1) s 1 0 s0 h0 h
          (setByte out c (f % 256)) a := by
  conv_lhs => rw [compLoop]
  conv_rhs => rw [compLoop]
  rw [if_pos hs, if_pos hs]
  rw [if_neg (show ¬((0:Nat) = 0 ∧ d > e - 17) from by simp [hd])]
  rfl

theorem compLoop_step_nearlit (y : List Nat) (t e fuel c d s i f s0 h0 h
    : Nat) (out a : List Nat) (hs : s < t) (hi : i ≠ 0)
    (hnear : s > t - 3) :
    compLoop y t e (fuel+1) c d s i f s0 h0 h out a
      = compLoop y t e fuel c (d+1) (s+1) (i*2 % 256) f s h h
          (setByte out d (byteAt y s))
          (if s0 > 0 then setByte a h0 s0 else a) := by
  conv_lhs => rw [compLoop]
  rw [if_pos hs, if_neg (by simp [hi]), if_pos hnear]
  simp [hi]

theorem compLoop_step_lit (y : List Nat) (t e fuel c d s i f s0 h0 h
    : Nat) (out a : List Nat) (hN : Nat) (hs : s < t) (hi : i ≠ 0)
    (hnear : ¬ s > t - 3)
    (hNe : hN = (byteAt y s ^^^ byteAt y (s+1)) % 256)
    (hp : byteAt a hN = 0 ∨ byteAt y s ≠ byteAt y (byteAt a hN)) :
    compLoop y t e (fuel+1) c d s i f s0 h0 h out a
      = compLoop y t e fuel c (d+1) (s+1) (i*2 % 256) f s hN hN
          (setByte out d (byteAt y s))
          (if s0 > 0 then setByte a h0 s0 else a) := by
  subst hNe
  conv_lhs => rw [compLoop]
  rw [if_pos hs, if_neg (by simp [hi]), if_neg hnear]
  rw [if_pos hp]
  simp [hi]

theorem compLoop_step_match (y : List Nat) (t e fuel c d s i f s0 h0 h
    : Nat) (out a : List Nat) (hN p n : Nat) (hs : s < t) (hi : i ≠ 0)
    (hnear : ¬ s > t - 3)
    (hNe : hN = (byteAt y s ^^^ byteAt y (s+1)) % 256)
    (hpe : p = byteAt a hN)
    (hne : n = matchExt y (p+2) (s+2) (min (s + 2 + 255) t - (s+2)))
    (hp : ¬ (p = 0 ∨ byteAt y s ≠ byteAt y p)) :
    compLoop y t e (fuel+1) c d s i f s0 h0 h out a
      = compLoop y t e fuel c (d+2) (s+2+n) (i*2 % 256) (f ||| i) 0 h0 hN
          (setByte (setByte out d hN) (d+1) n)
          (setByte (if s0 > 0 then setByte a h0 s0 else a) hN s) := by
  subst hNe
  subst hpe
  subst hne
  conv_lhs => rw [compLoop]
  rw [if_pos hs, if_neg (by simp [hi]), if_neg hnear]
  rw [if_neg hp]
  simp [hi]

theorem decompLoop_ctrl_eq (data : List Nat) (ulen fuel f s p d : Nat)
    (dst aa : List Nat) (hs : s < ulen) (hd : d < data.length) :
    decompLoop data ulen (fuel+1) f s p 0 d dst aa
      = decompLoop data ulen (fuel+1) (byteAt data d % 256) s p 1 (d+1)
          dst aa := by
  conv_lhs => rw [decompLoop]
  conv_rhs => rw [decompLoop]
  rw [if_pos hs, if_pos hs]
  rw [if_neg (show ¬((0:Nat) = 0 ∧ d ≥ data.length) from by simp; omega)]
  rfl

theorem decompLoop_step_lit (data : List Nat) (ulen fuel f s p i d : Nat)
    (dst aa : List Nat) (hs : s < ulen) (hi : i ≠ 0)
    (hbit : f &&& i = 0) (hd : d < data.length) (hsd : s < dst.length) :
    decompLoop data ulen (fuel+1) f s p i d dst aa
      = decompLoop data ulen fuel f (s+1)
          (hashCatchUp (setByte dst s (byteAt data d)) aa p (s + 1 - 1 - p)).2
          (if i * 2 = 256 then 0 else i * 2) (d+1)
          (setByte dst s (byteAt data d))
          (hashCatchUp (setByte dst s (byteAt data d)) aa p (s + 1 - 1 - p)).1
      := by
  conv_lhs => rw [decompLoop]
  rw [if_pos hs, if_neg (by simp [hi])]
  simp only [if_neg hi]
  rw [if_neg (by simp [hbit])]
  rw [if_neg (show ¬ d ≥ data.length from by omega)]
  rw [getByteB_lt _ _ hd, optBindOk, setByteB_lt _ _ _ hsd, optBindOk]

theorem decompLoop_step_match (data : List Nat) (ulen fuel f s p i d : Nat)
    (dst aa : List Nat) (r n : Nat) (dst3 : List Nat)
    (hs : s < ulen) (hi : i ≠ 0) (hbit : f &&& i ≠ 0)
    (hd : d < data.length) (hd1 : d + 1 < data.length)
    (hre : r = byteAt aa (byteAt data d % 256))
    (hne : n = byteAt data (d+1))
    (hrd : r + 1 < dst.length) (hsd : s + 1 < dst.length)
    (hcb : copyBack
        (setByte (setByte dst s (byteAt dst r)) (s+1)
          (byteAt (setByte dst s (byteAt dst r)) (r+1)))
        (s+2) (r+2) (n % 256) = some dst3) :
    decompLoop data ulen (fuel+1) f s p i d dst aa
      = decompLoop data ulen fuel f (s+2+n % 256) (s+2+n % 256)
          (if i * 2 = 256 then 0 else i * 2) (d+2) dst3
          (hashCatchUp dst3 aa p (s + 2 - 1 - p)).1 := by
  subst hre
  subst hne
  conv_lhs => rw [decompLoop]
  rw [if_pos hs, if_neg (by simp [hi])]
  simp only [if_neg hi]
  rw [if_pos hbit]
  rw [getByteB_lt _ _ hd, optBindOk]
  rw [getByteB_lt _ _ (show byteAt aa (byteAt data d % 256) < dst.length
    from by omega), optBindOk]
  rw [setByteB_lt _ _ _ (by omega), optBindOk]
  rw [getByteB_lt _ _ (show byteAt aa (byteAt data d % 256) + 1
    < (setByte dst s (byteAt dst (byteAt aa (byteAt data d % 256)))).length
    from by simp only [length_setByte]; omega), optBindOk]
  rw [setByteB_lt _ _ _ (by simp only [length_setByte]; omega),
    optBindOk]
  rw [getByteB_lt _ _ hd1, optBindOk]
  rw [hcb, optBindOk]

/-!  ## copyBack specification -/

theorem copyBack_spec (y : List Nat) :
    ∀ n dst sp rp,
    dst.length = y.length →
    rp < sp →
    sp + n ≤ y.length →
    (∀ j, j < sp → byteAt dst j = byteAt y j) →
    (∀ m, m < n → byteAt y (rp + m) = byteAt y (sp + m)) →
    ∃ dst2, copyBack dst sp rp n = some dst2 ∧ dst2.length = y.length ∧
      (∀ j, j < sp + n → byteAt dst2 j = byteAt y j) := by
  intro n
  induction n with
  | zero =>
      intro dst sp rp hlen hrs hbound hpre hagree
      exact ⟨dst, rfl, hlen, by simpa using hpre⟩
  | succ k ih =>
      intro dst sp rp hlen hrs hbound hpre hagree
      have hrd : rp < dst.length := by omega
      have hsd : sp < dst.length := by omega
      have hv : byteAt dst rp = byteAt y rp := hpre rp hrs
      have hpre2 : ∀ j, j < sp + 1 →
          byteAt (setByte dst sp (byteAt dst rp)) j = byteAt y j := by
        intro j hj
        by_cases hje : j = sp
        · subst hje
          rw [byteAt_setByte_self _ _ _ hsd, hv]
          have := hagree 0 (by omega)
          simpa using this
        · rw [byteAt_setByte_ne _ _ _ _ hje]
          exact hpre j (by omega)
      obtain ⟨dst2, hcb, hl2, hp2⟩ := ih (setByte dst sp (byteAt dst rp))
        (sp+1) (rp+1) (by rw [length_setByte]; exact hlen) (by omega)
        (by omega) hpre2
        (by
          intro m hm
          have := hagree (m+1) (by omega)
          rw [show rp + 1 + m = rp + (m+1) from by omega,
            show sp + 1 + m = sp + (m+1) from by omega]
          exact this)
      refine ⟨dst2, ?_, hl2, by
        intro j hj
        exact hp2 j (by omega)⟩
      rw [copyBack]
      rw [getByteB_lt _ _ hrd, optBindOk, setByteB_lt _ _ _ hsd, optBindOk]
      exact hcb

/-!  ## The compressor/decompressor lockstep invariant -/

/-- Invariant tying a mid-run compressor state to the matching
decompressor state.  `fd` is the decompressor control byte, `p2` its
hash cursor, `dst`/`aa` its output and hash table; `outF, dF` are the
final compressed output and length. -/
def SimInv (y : List Nat) (t e : Nat)
    (c d s i f s0 h0 : Nat) (out a : List Nat)
    (fd p2 : Nat) (dst aa : List Nat) (outF : List Nat) (dF : Nat) :
    Prop :=
  8 ≤ s ∧ s ≤ t ∧
  (i = 0 ∨ ∃ k, k < 8 ∧ i = 2^k ∧ f < i ∧ c < d ∧ d + 2*(8-k) ≤ e) ∧
  d ≤ e ∧
  out.length = e ∧ a.length = 256 ∧ aa.length = 256 ∧
  (∀ j, byteAt out j < 256) ∧
  dst.length = t ∧
  (∀ j, j < s → byteAt dst j = byteAt y j) ∧
  ((s0 = 0 ∧ p2 = s) ∨
    (8 ≤ s0 ∧ s0 = s - 1 ∧ p2 = s - 1 ∧
      (s + 3 ≤ t → h0 = (byteAt y (s-1) ^^^ byteAt y s) % 256))) ∧
  (s + 3 ≤ t →
    (∀ x, x < 256 → byteAt a x = byteAt aa x) ∧
    (∀ x, x < 256 → byteAt a x = 0 ∨
      (8 ≤ byteAt a x ∧ byteAt a x + 2 ≤ s ∧
        (byteAt y (byteAt a x) ^^^ byteAt y (byteAt a x + 1)) % 256
          = x))) ∧
  (i ≠ 0 → fd = byteAt outF c)

/-- Facts derivable from the invariant and a successful run: the final
length fits the buffer, and every output byte is a byte. -/
theorem simDerived (y : List Nat) (t e : Nat) (he : e = t / 2)
    (ht : 44 ≤ t) (hyb : ∀ j, byteAt y j < 256)
    (fuel c d s i f s0 h0 h : Nat) (out a : List Nat)
    (outF : List Nat) (dF fd p2 : Nat) (dst aa : List Nat)
    (hcomp : compLoop y t e fuel c d s i f s0 h0 h out a
      = some (outF, dF))
    (hinv : SimInv y t e c d s i f s0 h0 out a fd p2 dst aa outF dF) :
    dF ≤ e ∧ outF.length = e ∧ (outF.take dF).length = dF ∧
      (∀ j, byteAt outF j < 256) := by
  obtain ⟨hs8, hst, hmask, hde, hoe, hal, haal, hob, hdl, hpre, hpend,
    htab, hfd⟩ := hinv
  have he17 : 17 ≤ e := by omega
  have hdF : dF ≤ e := by
    apply compLoop_dUB y t e he17 fuel c d s i f s0 h0 h out a outF dF
      hcomp hde
    rcases hmask with h0 | ⟨k, hk, hik, _, _, hbud⟩
    · exact Or.inl h0
    · exact Or.inr ⟨k, hk, hik, hbud⟩
  have hlen : outF.length = e := by
    rw [compLoop_lenOut y t e fuel c d s i f s0 h0 h out a outF dF hcomp]
    exact hoe
  refine ⟨hdF, hlen, ?_, ?_⟩
  · rw [List.length_take]
    omega
  · exact compLoop_outBytes y t e hyb fuel c d s i f s0 h0 h out a outF
      dF hcomp hob

theorem bytesLT_setByte (l : List Nat) (p v : Nat)
    (hl : ∀ j, byteAt l j < 256) (hv : v < 256) :
    ∀ j, byteAt (setByte l p v) j < 256 := by
  intro j
  by_cases hj : j = p
  · subst hj
    by_cases hp : j < l.length
    · rw [byteAt_setByte_self _ _ _ hp]
      exact hv
    · have hseq : setByte l j v = l := by
        unfold setByte
        exact List.set_eq_of_length_le (by omega)
      rw [hseq]
      exact hl j
  · rw [byteAt_setByte_ne _ _ _ _ hj]
    exact hl j

/-- Near-end iterations (`s > t - 3`) are literals on both sides; the
hash tables may diverge but are never consulted again. -/
theorem mainBranchNear (y : List Nat) (t e : Nat) (hty : t = y.length)
    (he : e = t / 2) (ht : 44 ≤ t) (hyb : ∀ j, byteAt y j < 256)
    (fuel : Nat)
    (IH : ∀ c d s i f s0 h0 h out a outF dF fd p2 dst aa,
      compLoop y t e fuel c d s i f s0 h0 h out a = some (outF, dF) →
      SimInv y t e c d s i f s0 h0 out a fd p2 dst aa outF dF →
      decompLoop (outF.take dF) t fuel fd s p2 i d dst aa = some y)
    (k c d s f s0 h0 h : Nat) (out a : List Nat)
    (outF : List Nat) (dF fd p2 : Nat) (dst aa : List Nat)
    (hk : k < 8)
    (hcomp : compLoop y t e (fuel+1) c d s (2^k) f s0 h0 h out a
      = some (outF, dF))
    (hinv : SimInv y t e c d s (2^k) f s0 h0 out a fd p2 dst aa outF dF)
    (hs : s < t) (hnear : s > t - 3) :
    decompLoop (outF.take dF) t (fuel+1) fd s p2 (2^k) d dst aa
      = some y := by
  obtain ⟨hdF, hlenF, hdataLen, houtFb⟩ := simDerived y t e he ht hyb
    (fuel+1) c d s (2^k) f s0 h0 h out a outF dF fd p2 dst aa hcomp hinv
  obtain ⟨hs8, hst, hmask, hde, hoe, hal, haal, hob, hdl, hpre, hpend,
    htab, hfd⟩ := hinv
  have hi2 : (2:Nat)^k ≠ 0 := by positivity
  rcases hmask with h0 | ⟨k2, hk2, hik2, hflt, hcd, hbud⟩
  · exact absurd h0 hi2
  have hkk : k = k2 := Nat.pow_right_injective (by norm_num) hik2
  rw [← hkk] at hbud
  have hdlt : d < e := by omega
  rw [compLoop_step_nearlit y t e fuel c d s (2^k) f s0 h0 h out a hs
    hi2 hnear] at hcomp
  have hd1dF : d + 1 ≤ dF :=
    compLoop_dMono y t e fuel _ _ _ _ _ _ _ _ _ _ _ _ hcomp
  have houtd : byteAt outF d = byteAt y s := by
    rw [compLoop_outLower y t e fuel _ _ _ _ _ _ _ _ _ _ _ _ hcomp d
      (by omega) (by omega)]
    exact byteAt_setByte_self _ _ _ (by omega)
  have hfd2 : fd = byteAt outF c := hfd hi2
  have hbit : fd &&& 2^k = 0 := by
    by_cases hk7 : k < 7
    · rw [show (2:Nat)^k * 2 % 256 = 2^(k+1) from by
        rw [maskDouble k hk, if_pos hk7]] at hcomp
      obtain ⟨r, hr⟩ := (compLoop_ctrl y t e fuel _ _ _ _ _ _ _ _ _ _ _ _
        hcomp (by omega) (by simp only [length_setByte]; omega)).2
        (k+1) (by omega) rfl
        (by
          have hpk : (2:Nat)^k < 2^(k+1) :=
            Nat.pow_lt_pow_right (by norm_num) (by omega)
          omega)
      rw [hfd2, hr, show f + 2^(k+1) * r = f + 2^k * (2*r) from by
        ring_nf]
      rw [and_two_pow_add k f (2*r) hflt]
      simp [Nat.mul_mod_right]
    · have hk7e : k = 7 := by omega
      subst hk7e
      rw [show (2:Nat)^7 * 2 % 256 = 0 from by decide] at hcomp
      have hc0 := (compLoop_ctrl y t e fuel _ _ _ _ _ _ _ _ _ _ _ _
        hcomp (by omega) (by simp only [length_setByte]; omega)).1 rfl
      rw [hfd2, hc0, Nat.mod_eq_of_lt (by omega)]
      rw [show f = f + 2^7 * 0 from by omega]
      rw [and_two_pow_add 7 f 0 hflt]
      simp
  rw [decompLoop_step_lit (outF.take dF) t fuel fd s p2 (2^k) d dst aa
    (by omega) hi2 hbit (by omega) (by omega)]
  rw [show (if 2^k * 2 = 256 then 0 else 2^k * 2) = 2^k * 2 % 256 from by
    interval_cases k <;> decide]
  rw [show byteAt (outF.take dF) d = byteAt y s from by
    rw [byteAt_take _ _ _ (by omega)]
    exact houtd]
  have hnear4 : ¬ (s + 1 + 3 ≤ t) := by omega
  have hpre2 : ∀ j, j < s + 1 →
      byteAt (setByte dst s (byteAt y s)) j = byteAt y j := by
    intro j hj
    by_cases hje : j = s
    · subst hje
      exact byteAt_setByte_self _ _ _ (by omega)
    · rw [byteAt_setByte_ne _ _ _ _ hje]
      exact hpre j (by omega)
  rcases hpend with ⟨hs00, hp2s⟩ | ⟨hs08, hs0v, hp2v, hh0⟩
  · subst hs00
    rw [hp2s]
    rw [if_neg (by omega : ¬ (0:Nat) > 0)] at hcomp
    rw [show s + 1 - 1 - s = 0 from by omega]
    simp only [hashCatchUp]
    apply IH _ _ _ _ _ _ _ _ _ _ _ _ _ _ _ _ hcomp
    refine ⟨by omega, by omega, ?_, by omega,
      by simp only [length_setByte]; exact hoe, hal, haal,
      bytesLT_setByte _ _ _ hob (hyb s), by
        simp only [length_setByte]; exact hdl, hpre2,
      Or.inr ⟨by omega, by omega, by omega, by omega⟩,
      by intro hcon; omega, ?_⟩
    · by_cases hk7 : k < 7
      · right
        refine ⟨k+1, by omega, by rw [maskDouble k hk, if_pos hk7], ?_,
          by omega, by omega⟩
        rw [maskDouble k hk, if_pos hk7]
        have hpk : (2:Nat)^k < 2^(k+1) :=
          Nat.pow_lt_pow_right (by norm_num) (by omega)
        omega
      · left
        rw [maskDouble k hk, if_neg hk7]
    · intro _
      exact hfd2
  · subst hs0v
    rw [hp2v]
    rw [if_pos (by omega : s - 1 > 0)] at hcomp
    rw [show s + 1 - 1 - (s - 1) = 1 from by omega]
    simp only [hashCatchUp]
    rw [show s - 1 + 1 = s from by omega]
    apply IH _ _ _ _ _ _ _ _ _ _ _ _ _ _ _ _ hcomp
    refine ⟨by omega, by omega, ?_, by omega,
      by simp only [length_setByte]; exact hoe,
      by simp only [length_setByte]; exact hal, ?_,
      bytesLT_setByte _ _ _ hob (hyb s), by
        simp only [length_setByte]; exact hdl, hpre2,
      Or.inr ⟨by omega, by omega, by omega, by omega⟩,
      by intro hcon; omega, ?_⟩
    · by_cases hk7 : k < 7
      · right
        refine ⟨k+1, by omega, by rw [maskDouble k hk, if_pos hk7], ?_,
          by omega, by omega⟩
        rw [maskDouble k hk, if_pos hk7]
        have hpk : (2:Nat)^k < 2^(k+1) :=
          Nat.pow_lt_pow_right (by norm_num) (by omega)
        omega
      · left
        rw [maskDouble k hk, if_neg hk7]
    · simp only [length_setByte]
      exact haal
    · intro _
      exact hfd2

/-- Mid-stream literal (hash miss): both sides emit one byte and make
the same deferred hash-table update. -/
theorem mainBranchLit (y : List Nat) (t e : Nat) (hty : t = y.length)
    (he : e = t / 2) (ht : 44 ≤ t) (hyb : ∀ j, byteAt y j < 256)
    (fuel : Nat)
    (IH : ∀ c d s i f s0 h0 h out a outF dF fd p2 dst aa,
      compLoop y t e fuel c d s i f s0 h0 h out a = some (outF, dF) →
      SimInv y t e c d s i f s0 h0 out a fd p2 dst aa outF dF →
      decompLoop (outF.take dF) t fuel fd s p2 i d dst aa = some y)
    (k c d s f s0 h0 h hN : Nat) (out a : List Nat)
    (outF : List Nat) (dF fd p2 : Nat) (dst aa : List Nat)
    (hk : k < 8)
    (hcomp : compLoop y t e (fuel+1) c d s (2^k) f s0 h0 h out a
      = some (outF, dF))
    (hinv : SimInv y t e c d s (2^k) f s0 h0 out a fd p2 dst aa outF dF)
    (hs : s < t) (hnear : ¬ s > t - 3)
    (hNe : hN = (byteAt y s ^^^ byteAt y (s+1)) % 256)
    (hp : byteAt a hN = 0 ∨ byteAt y s ≠ byteAt y (byteAt a hN)) :
    decompLoop (outF.take dF) t (fuel+1) fd s p2 (2^k) d dst aa
      = some y := by
  obtain ⟨hdF, hlenF, hdataLen, houtFb⟩ := simDerived y t e he ht hyb
    (fuel+1) c d s (2^k) f s0 h0 h out a outF dF fd p2 dst aa hcomp hinv
  obtain ⟨hs8, hst, hmask, hde, hoe, hal, haal, hob, hdl, hpre, hpend,
    htab, hfd⟩ := hinv
  have hi2 : (2:Nat)^k ≠ 0 := by positivity
  rcases hmask with h0e | ⟨k2, hk2, hik2, hflt, hcd, hbud⟩
  · exact absurd h0e hi2
  have hkk : k = k2 := Nat.pow_right_injective (by norm_num) hik2
  rw [← hkk] at hbud
  have hdlt : d < e := by omega
  have hs3 : s + 3 ≤ t := by omega
  have hN256 : hN < 256 := by
    rw [hNe]
    exact Nat.mod_lt _ (by norm_num)
  rw [compLoop_step_lit y t e fuel c d s (2^k) f s0 h0 h out a hN hs
    hi2 hnear hNe hp] at hcomp
  have hd1dF : d + 1 ≤ dF :=
    compLoop_dMono y t e fuel _ _ _ _ _ _ _ _ _ _ _ _ hcomp
  have houtd : byteAt outF d = byteAt y s := by
    rw [compLoop_outLower y t e fuel _ _ _ _ _ _ _ _ _ _ _ _ hcomp d
      (by omega) (by omega)]
    exact byteAt_setByte_self _ _ _ (by omega)
  have hfd2 : fd = byteAt outF c := hfd hi2
  have hbit : fd &&& 2^k = 0 := by
    by_cases hk7 : k < 7
    · rw [show (2:Nat)^k * 2 % 256 = 2^(k+1) from by
        rw [maskDouble k hk, if_pos hk7]] at hcomp
      obtain ⟨r, hr⟩ := (compLoop_ctrl y t e fuel _ _ _ _ _ _ _ _ _ _ _ _
        hcomp (by omega) (by simp only [length_setByte]; omega)).2
        (k+1) (by omega) rfl
        (by
          have hpk : (2:Nat)^k < 2^(k+1) :=
            Nat.pow_lt_pow_right (by norm_num) (by omega)
          omega)
      rw [hfd2, hr, show f + 2^(k+1) * r = f + 2^k * (2*r) from by
        ring_nf]
      rw [and_two_pow_add k f (2*r) hflt]
      simp [Nat.mul_mod_right]
    · have hk7e : k = 7 := by omega
      subst hk7e
      rw [show (2:Nat)^7 * 2 % 256 = 0 from by decide] at hcomp
      have hc0 := (compLoop_ctrl y t e fuel _ _ _ _ _ _ _ _ _ _ _ _
        hcomp (by omega) (by simp only [length_setByte]; omega)).1 rfl
      rw [hfd2, hc0, Nat.mod_eq_of_lt (by omega)]
      rw [show f = f + 2^7 * 0 from by omega]
      rw [and_two_pow_add 7 f 0 hflt]
      simp
  rw [decompLoop_step_lit (outF.take dF) t fuel fd s p2 (2^k) d dst aa
    (by omega) hi2 hbit (by omega) (by omega)]
  rw [show (if 2^k * 2 = 256 then 0 else 2^k * 2) = 2^k * 2 % 256 from by
    interval_cases k <;> decide]
  rw [show byteAt (outF.take dF) d = byteAt y s from by
    rw [byteAt_take _ _ _ (by omega)]
    exact houtd]
  have hpre2 : ∀ j, j < s + 1 →
      byteAt (setByte dst s (byteAt y s)) j = byteAt y j := by
    intro j hj
    by_cases hje : j = s
    · subst hje
      exact byteAt_setByte_self _ _ _ (by omega)
    · rw [byteAt_setByte_ne _ _ _ _ hje]
      exact hpre j (by omega)
  have hmaskNext : 2^k * 2 % 256 = 0 ∨
      ∃ kk, kk < 8 ∧ 2^k * 2 % 256 = 2^kk ∧ f < 2^k * 2 % 256 ∧
        c < d + 1 ∧ (d+1) + 2*(8-kk) ≤ e := by
    by_cases hk7 : k < 7
    · right
      refine ⟨k+1, by omega, by rw [maskDouble k hk, if_pos hk7], ?_,
        by omega, by omega⟩
      rw [maskDouble k hk, if_pos hk7]
      have hpk : (2:Nat)^k < 2^(k+1) :=
        Nat.pow_lt_pow_right (by norm_num) (by omega)
      omega
    · left
      rw [maskDouble k hk, if_neg hk7]
  obtain ⟨htabEq, htabGood⟩ := htab hs3
  have hGoodNext : ∀ (a1 : List Nat),
      (∀ x, x < 256 → byteAt a1 x = 0 ∨
        (8 ≤ byteAt a1 x ∧ byteAt a1 x + 2 ≤ s + 1 ∧
          (byteAt y (byteAt a1 x) ^^^ byteAt y (byteAt a1 x + 1)) % 256
            = x)) →
      (s + 1 + 3 ≤ t →
        (∀ x, x < 256 → byteAt a1 x = 0 ∨
          (8 ≤ byteAt a1 x ∧ byteAt a1 x + 2 ≤ s + 1 ∧
            (byteAt y (byteAt a1 x) ^^^ byteAt y (byteAt a1 x + 1)) % 256
              = x))) := fun a1 hg _ => hg
  rcases hpend with ⟨hs00, hp2s⟩ | ⟨hs08, hs0v, hp2v, hh0⟩
  · subst hs00
    rw [hp2s]
    rw [if_neg (by omega : ¬ (0:Nat) > 0)] at hcomp
    rw [show s + 1 - 1 - s = 0 from by omega]
    simp only [hashCatchUp]
    apply IH _ _ _ _ _ _ _ _ _ _ _ _ _ _ _ _ hcomp
    refine ⟨by omega, by omega, hmaskNext, by omega,
      by simp only [length_setByte]; exact hoe, hal, haal,
      bytesLT_setByte _ _ _ hob (hyb s), by
        simp only [length_setByte]; exact hdl, hpre2,
      Or.inr ⟨by omega, by omega, by omega, by
        intro _
        rw [show s + 1 - 1 = s from by omega]
        exact hNe⟩, ?_, by
        intro _
        exact hfd2⟩
    intro _
    refine ⟨htabEq, ?_⟩
    intro x hx
    rcases htabGood x hx with h0x | ⟨hg1, hg2, hg3⟩
    · exact Or.inl h0x
    · exact Or.inr ⟨hg1, by omega, hg3⟩
  · subst hs0v
    rw [hp2v]
    rw [if_pos (by omega : s - 1 > 0)] at hcomp
    rw [show s + 1 - 1 - (s - 1) = 1 from by omega]
    simp only [hashCatchUp]
    rw [show s - 1 + 1 = s from by omega]
    have hh0v : h0 = (byteAt y (s-1) ^^^ byteAt y s) % 256 := hh0 hs3
    have hdst1a : byteAt (setByte dst s (byteAt y s)) (s-1)
        = byteAt y (s-1) := by
      rw [byteAt_setByte_ne _ _ _ _ (by omega)]
      exact hpre (s-1) (by omega)
    have hdst1b : byteAt (setByte dst s (byteAt y s)) s = byteAt y s :=
      byteAt_setByte_self _ _ _ (by omega)
    rw [hdst1a, hdst1b]
    rw [show (byteAt y (s-1) ^^^ byteAt y s) % 256 = h0 from hh0v.symm]
    apply IH _ _ _ _ _ _ _ _ _ _ _ _ _ _ _ _ hcomp
    have hh0lt : h0 < 256 := by
      rw [hh0v]
      exact Nat.mod_lt _ (by norm_num)
    refine ⟨by omega, by omega, hmaskNext, by omega,
      by simp only [length_setByte]; exact hoe,
      by simp only [length_setByte]; exact hal,
      by simp only [length_setByte]; exact haal,
      bytesLT_setByte _ _ _ hob (hyb s), by
        simp only [length_setByte]; exact hdl, hpre2,
      Or.inr ⟨by omega, by omega, by omega, by
        intro _
        rw [show s + 1 - 1 = s from by omega]
        exact hNe⟩, ?_, by
        intro _
        exact hfd2⟩
    intro _
    constructor
    · intro x hx
      by_cases hxe : x = h0
      · subst hxe
        rw [byteAt_setByte_self _ _ _ (by omega),
          byteAt_setByte_self _ _ _ (by omega)]
      · rw [byteAt_setByte_ne _ _ _ _ hxe,
          byteAt_setByte_ne _ _ _ _ hxe]
        exact htabEq x hx
    · intro x hx
      by_cases hxe : x = h0
      · subst hxe
        rw [byteAt_setByte_self _ _ _ (by omega)]
        right
        refine ⟨by omega, by omega, ?_⟩
        rw [show s - 1 + 1 = s from by omega]
        exact hh0v.symm
      · rw [byteAt_setByte_ne _ _ _ _ hxe]
        rcases htabGood x hx with h0x | ⟨hg1, hg2, hg3⟩
        · exact Or.inl h0x
        · exact Or.inr ⟨hg1, by omega, hg3⟩

/-- Mid-stream back-reference: the stored hash entry points at an
earlier occurrence; the decompressor copies exactly the matched
bytes. -/
theorem mainBranchMatch (y : List Nat) (t e : Nat) (hty : t = y.length)
    (he : e = t / 2) (ht : 44 ≤ t) (hyb : ∀ j, byteAt y j < 256)
    (fuel : Nat)
    (IH : ∀ c d s i f s0 h0 h out a outF dF fd p2 dst aa,
      compLoop y t e fuel c d s i f s0 h0 h out a = some (outF, dF) →
      SimInv y t e c d s i f s0 h0 out a fd p2 dst aa outF dF →
      decompLoop (outF.take dF) t fuel fd s p2 i d dst aa = some y)
    (k c d s f s0 h0 h hN : Nat) (out a : List Nat)
    (outF : List Nat) (dF fd p2 : Nat) (dst aa : List Nat)
    (hk : k < 8)
    (hcomp : compLoop y t e (fuel+1) c d s (2^k) f s0 h0 h out a
      = some (outF, dF))
    (hinv : SimInv y t e c d s (2^k) f s0 h0 out a fd p2 dst aa outF dF)
    (hs : s < t) (hnear : ¬ s > t - 3)
    (hNe : hN = (byteAt y s ^^^ byteAt y (s+1)) % 256)
    (hp : ¬ (byteAt a hN = 0 ∨ byteAt y s ≠ byteAt y (byteAt a hN))) :
    decompLoop (outF.take dF) t (fuel+1) fd s p2 (2^k) d dst aa
      = some y := by
  obtain ⟨hdF, hlenF, hdataLen, houtFb⟩ := simDerived y t e he ht hyb
    (fuel+1) c d s (2^k) f s0 h0 h out a outF dF fd p2 dst aa hcomp hinv
  obtain ⟨hs8, hst, hmask, hde, hoe, hal, haal, hob, hdl, hpre, hpend,
    htab, hfd⟩ := hinv
  have hi2 : (2:Nat)^k ≠ 0 := by positivity
  rcases hmask with h0e | ⟨k2, hk2, hik2, hflt, hcd, hbud⟩
  · exact absurd h0e hi2
  have hkk : k = k2 := Nat.pow_right_injective (by norm_num) hik2
  rw [← hkk] at hbud
  have hdlt : d < e := by omega
  have hd1lt : d + 1 < e := by omega
  have hs3 : s + 3 ≤ t := by omega
  have hN256 : hN < 256 := by
    rw [hNe]
    exact Nat.mod_lt _ (by norm_num)
  push_neg at hp
  obtain ⟨hpne, hyeq⟩ := hp
  obtain ⟨htabEq, htabGood⟩ := htab hs3
  have hPgood := htabGood hN hN256
  rcases hPgood with hP0 | ⟨hp8, hpb, hph⟩
  · exact absurd hP0 hpne
  -- notation
  have hxors : byteAt y s ^^^ byteAt y (s+1) < 256 := by
    have hx := Nat.xor_lt_two_pow (n := 8)
      (show byteAt y s < 2^8 from by have := hyb s; omega)
      (show byteAt y (s+1) < 2^8 from by have := hyb (s+1); omega)
    omega
  have hxorp : byteAt y (byteAt a hN) ^^^ byteAt y (byteAt a hN + 1)
      < 256 := by
    have hx := Nat.xor_lt_two_pow (n := 8)
      (show byteAt y (byteAt a hN) < 2^8 from by
        have := hyb (byteAt a hN); omega)
      (show byteAt y (byteAt a hN + 1) < 2^8 from by
        have := hyb (byteAt a hN + 1); omega)
    omega
  have hNv : hN = byteAt y s ^^^ byteAt y (s+1) := by
    rw [hNe, Nat.mod_eq_of_lt hxors]
  have hphv : byteAt y (byteAt a hN) ^^^ byteAt y (byteAt a hN + 1)
      = hN := by
    conv_rhs => rw [← hph]
    rw [Nat.mod_eq_of_lt hxorp]
  have hyp1 : byteAt y (byteAt a hN + 1) = byteAt y (s+1) := by
    have h1 : byteAt y s ^^^ byteAt y (byteAt a hN + 1)
        = byteAt y s ^^^ byteAt y (s+1) := by
      calc byteAt y s ^^^ byteAt y (byteAt a hN + 1)
          = byteAt y (byteAt a hN) ^^^ byteAt y (byteAt a hN + 1) := by
            rw [hyeq]
        _ = hN := hphv
        _ = byteAt y s ^^^ byteAt y (s+1) := hNv
    calc byteAt y (byteAt a hN + 1)
        = byteAt y s ^^^ (byteAt y s ^^^ byteAt y (byteAt a hN + 1)) :=
          (Nat.xor_cancel_left _ _).symm
      _ = byteAt y s ^^^ (byteAt y s ^^^ byteAt y (s+1)) := by rw [h1]
      _ = byteAt y (s+1) := Nat.xor_cancel_left _ _
  -- match length facts
  have hnle := matchExt_le y (byteAt a hN + 2) (s+2)
    (min (s + 2 + 255) t - (s+2))
  have hminle1 : min (s + 2 + 255) t ≤ s + 2 + 255 := Nat.min_le_left _ _
  have hminle2 : min (s + 2 + 255) t ≤ t := Nat.min_le_right _ _
  have hn255 : matchExt y (byteAt a hN + 2) (s+2)
      (min (s + 2 + 255) t - (s+2)) ≤ 255 := by omega
  have hsnb : s + 2 + matchExt y (byteAt a hN + 2) (s+2)
      (min (s + 2 + 255) t - (s+2)) ≤ t := by omega
  have hag := matchExt_agree y (min (s + 2 + 255) t - (s+2))
    (byteAt a hN + 2) (s+2)
  -- rewrite the compressor one step
  rw [compLoop_step_match y t e fuel c d s (2^k) f s0 h0 h out a hN
    (byteAt a hN)
    (matchExt y (byteAt a hN + 2) (s+2) (min (s + 2 + 255) t - (s+2)))
    hs hi2 hnear hNe rfl rfl (by
      push_neg
      exact ⟨hpne, hyeq⟩)] at hcomp
  rw [lor_two_pow_of_lt k f hflt] at hcomp
  have hd2dF : d + 2 ≤ dF :=
    compLoop_dMono y t e fuel _ _ _ _ _ _ _ _ _ _ _ _ hcomp
  have houtd : byteAt outF d = hN := by
    rw [compLoop_outLower y t e fuel _ _ _ _ _ _ _ _ _ _ _ _ hcomp d
      (by omega) (by omega)]
    rw [byteAt_setByte_ne _ _ _ _ (by omega)]
    exact byteAt_setByte_self _ _ _ (by omega)
  have houtd1 : byteAt outF (d+1)
      = matchExt y (byteAt a hN + 2) (s+2)
          (min (s + 2 + 255) t - (s+2)) := by
    rw [compLoop_outLower y t e fuel _ _ _ _ _ _ _ _ _ _ _ _ hcomp (d+1)
      (by omega) (by omega)]
    exact byteAt_setByte_self _ _ _ (by
      simp only [length_setByte]
      omega)
  have hfd2 : fd = byteAt outF c := hfd hi2
  have hbit : fd &&& 2^k ≠ 0 := by
    by_cases hk7 : k < 7
    · rw [show (2:Nat)^k * 2 % 256 = 2^(k+1) from by
        rw [maskDouble k hk, if_pos hk7]] at hcomp
      obtain ⟨r, hr⟩ := (compLoop_ctrl y t e fuel _ _ _ _ _ _ _ _ _ _ _ _
        hcomp (by omega) (by simp only [length_setByte]; omega)).2
        (k+1) (by omega) rfl
        (by
          have hpk : (2:Nat)^k < 2^(k+1) :=
            Nat.pow_lt_pow_right (by norm_num) (by omega)
          omega)
      rw [hfd2, hr, show f + 2^k + 2^(k+1) * r = f + 2^k * (2*r+1)
        from by ring_nf]
      rw [and_two_pow_add k f (2*r+1) hflt]
      have : (2*r+1) % 2 = 1 := by omega
      rw [if_pos this]
      positivity
    · have hk7e : k = 7 := by omega
      subst hk7e
      rw [show (2:Nat)^7 * 2 % 256 = 0 from by decide] at hcomp
      have hc0 := (compLoop_ctrl y t e fuel _ _ _ _ _ _ _ _ _ _ _ _
        hcomp (by omega) (by simp only [length_setByte]; omega)).1 rfl
      rw [hfd2, hc0, Nat.mod_eq_of_lt (by omega)]
      rw [show f + 2^7 = f + 2^7 * 1 from by omega]
      rw [and_two_pow_add 7 f 1 hflt]
      simp
  -- decompressor-side values
  have hdatad : byteAt (outF.take dF) d = hN := by
    rw [byteAt_take _ _ _ (by omega)]
    exact houtd
  have hdatad1 : byteAt (outF.take dF) (d+1)
      = matchExt y (byteAt a hN + 2) (s+2)
          (min (s + 2 + 255) t - (s+2)) := by
    rw [byteAt_take _ _ _ (by omega)]
    exact houtd1
  have hr_eq : byteAt a hN = byteAt aa (byteAt (outF.take dF) d % 256)
      := by
    rw [hdatad, Nat.mod_eq_of_lt hN256]
    exact htabEq hN hN256
  -- the copy
  have hv0 : byteAt dst (byteAt a hN) = byteAt y (byteAt a hN) :=
    hpre _ (by omega)
  have hv1 : byteAt (setByte dst s (byteAt dst (byteAt a hN)))
      (byteAt a hN + 1) = byteAt y (byteAt a hN + 1) := by
    rw [byteAt_setByte_ne _ _ _ _ (by omega)]
    exact hpre _ (by omega)
  have hpre2 : ∀ j, j < s + 2 →
      byteAt (setByte (setByte dst s (byteAt dst (byteAt a hN))) (s+1)
        (byteAt (setByte dst s (byteAt dst (byteAt a hN)))
          (byteAt a hN + 1))) j = byteAt y j := by
    intro j hj
    by_cases hj1 : j = s + 1
    · subst hj1
      rw [byteAt_setByte_self _ _ _ (by simp only [length_setByte]; omega)]
      rw [hv1, hyp1]
    · rw [byteAt_setByte_ne _ _ _ _ hj1]
      by_cases hj0 : j = s
      · subst hj0
        rw [byteAt_setByte_self _ _ _ (by omega), hv0, hyeq.symm]
      · rw [byteAt_setByte_ne _ _ _ _ hj0]
        exact hpre j (by omega)
  obtain ⟨dst3, hcb3, hl3, hp3⟩ := copyBack_spec y
    (matchExt y (byteAt a hN + 2) (s+2) (min (s + 2 + 255) t - (s+2)))
    (setByte (setByte dst s (byteAt dst (byteAt a hN))) (s+1)
      (byteAt (setByte dst s (byteAt dst (byteAt a hN)))
        (byteAt a hN + 1)))
    (s+2) (byteAt a hN + 2)
    (by simp only [length_setByte]; omega)
    (by omega) (by omega) hpre2
    (by
      intro m hm
      exact hag m hm)
  -- apply the decomp step
  rw [decompLoop_step_match (outF.take dF) t fuel fd s p2 (2^k) d dst aa
    (byteAt a hN)
    (matchExt y (byteAt a hN + 2) (s+2) (min (s + 2 + 255) t - (s+2)))
    dst3 (by omega) hi2 hbit (by omega) (by omega) hr_eq hdatad1.symm
    (by omega) (by omega)
    (by
      rw [Nat.mod_eq_of_lt (by omega)]
      exact hcb3)]
  rw [show matchExt y (byteAt a hN + 2) (s+2)
      (min (s + 2 + 255) t - (s+2)) % 256
      = matchExt y (byteAt a hN + 2) (s+2) (min (s + 2 + 255) t - (s+2))
    from Nat.mod_eq_of_lt (by omega)]
  rw [show (if 2^k * 2 = 256 then 0 else 2^k * 2) = 2^k * 2 % 256 from by
    interval_cases k <;> decide]
  have hmaskNext : 2^k * 2 % 256 = 0 ∨
      ∃ kk, kk < 8 ∧ 2^k * 2 % 256 = 2^kk ∧ f + 2^k < 2^k * 2 % 256 ∧
        c < d + 2 ∧ (d+2) + 2*(8-kk) ≤ e := by
    by_cases hk7 : k < 7
    · right
      refine ⟨k+1, by omega, by rw [maskDouble k hk, if_pos hk7], ?_,
        by omega, by omega⟩
      rw [maskDouble k hk, if_pos hk7]
      have hpk : (2:Nat)^k < 2^(k+1) :=
        Nat.pow_lt_pow_right (by norm_num) (by omega)
      omega
    · left
      rw [maskDouble k hk, if_neg hk7]
  -- catch-up analysis and table sync
  have hdst3s : byteAt dst3 s = byteAt y s := hp3 s (by omega)
  have hdst3s1 : byteAt dst3 (s+1) = byteAt y (s+1) := hp3 (s+1)
    (by omega)
  have htabEq2 : ∀ (tb1 tb2 : List Nat), tb1.length = 256 →
      tb2.length = 256 → (∀ x, x < 256 → byteAt tb1 x = byteAt tb2 x) →
      ∀ idx v, idx < 256 →
      ∀ x, x < 256 → byteAt (setByte tb1 idx v) x
        = byteAt (setByte tb2 idx v) x := by
    intro tb1 tb2 hl1 hl2 heq idx v hidx x hx
    by_cases hxe : x = idx
    · subst hxe
      rw [byteAt_setByte_self _ _ _ (by omega),
        byteAt_setByte_self _ _ _ (by omega)]
    · rw [byteAt_setByte_ne _ _ _ _ hxe, byteAt_setByte_ne _ _ _ _ hxe]
      exact heq x hx
  rcases hpend with ⟨hs00, hp2s⟩ | ⟨hs08, hs0v, hp2v, hh0⟩
  · -- no pending update: one catch-up entry, at position s
    subst hs00
    rw [hp2s]
    rw [if_neg (by omega : ¬ (0:Nat) > 0)] at hcomp
    rw [show s + 2 - 1 - s = 1 from by omega]
    simp only [hashCatchUp]
    rw [hdst3s, hdst3s1, show (byteAt y s ^^^ byteAt y (s+1)) % 256 = hN
      from hNe.symm]
    apply IH _ _ _ _ _ _ _ _ _ _ _ _ _ _ _ _ hcomp
    refine ⟨by omega, by omega, hmaskNext, by omega,
      by simp only [length_setByte]; exact hoe,
      by simp only [length_setByte]; exact hal,
      by simp only [length_setByte]; exact haal,
      bytesLT_setByte _ _ _ (bytesLT_setByte _ _ _ hob hN256) (by omega),
      by rw [hl3, hty], hp3,
      Or.inl ⟨rfl, rfl⟩, ?_, by
        intro _
        exact hfd2⟩
    intro _
    constructor
    · exact htabEq2 a aa hal haal htabEq hN s hN256
    · intro x hx
      by_cases hxe : x = hN
      · subst hxe
        rw [byteAt_setByte_self _ _ _ (by omega)]
        right
        refine ⟨by omega, by omega, ?_⟩
        rw [hNe]
      · rw [byteAt_setByte_ne _ _ _ _ hxe]
        rcases htabGood x hx with h0x | ⟨hg1, hg2, hg3⟩
        · exact Or.inl h0x
        · exact Or.inr ⟨hg1, by omega, hg3⟩
  · -- pending update at s-1, then the match entry at s
    subst hs0v
    rw [hp2v]
    rw [if_pos (by omega : s - 1 > 0)] at hcomp
    rw [show s + 2 - 1 - (s - 1) = 2 from by omega]
    simp only [hashCatchUp]
    rw [show s - 1 + 1 = s from by omega]
    have hh0v : h0 = (byteAt y (s-1) ^^^ byteAt y s) % 256 := hh0 hs3
    have hh0lt : h0 < 256 := by
      rw [hh0v]
      exact Nat.mod_lt _ (by norm_num)
    have hdst3sm : byteAt dst3 (s-1) = byteAt y (s-1) := hp3 (s-1)
      (by omega)
    rw [hdst3sm, hdst3s, hdst3s1]
    rw [show (byteAt y (s-1) ^^^ byteAt y s) % 256 = h0 from hh0v.symm]
    rw [show (byteAt y s ^^^ byteAt y (s+1)) % 256 = hN from hNe.symm]
    apply IH _ _ _ _ _ _ _ _ _ _ _ _ _ _ _ _ hcomp
    refine ⟨by omega, by omega, hmaskNext, by omega,
      by simp only [length_setByte]; exact hoe,
      by simp only [length_setByte]; exact hal,
      by simp only [length_setByte]; exact haal,
      bytesLT_setByte _ _ _ (bytesLT_setByte _ _ _ hob hN256) (by omega),
      by rw [hl3, hty], hp3,
      Or.inl ⟨rfl, rfl⟩, ?_, by
        intro _
        exact hfd2⟩
    intro _
    constructor
    · refine htabEq2 _ _ (by simp only [length_setByte]; exact hal)
        (by simp only [length_setByte]; exact haal) ?_ hN s hN256
      exact htabEq2 a aa hal haal htabEq h0 (s-1) hh0lt
    · intro x hx
      by_cases hxe : x = hN
      · subst hxe
        rw [byteAt_setByte_self _ _ _ (by
          simp only [length_setByte]
          omega)]
        right
        refine ⟨by omega, by omega, ?_⟩
        rw [hNe]
      · rw [byteAt_setByte_ne _ _ _ _ hxe]
        by_cases hxe0 : x = h0
        · subst hxe0
          rw [byteAt_setByte_self _ _ _ (by omega)]
          right
          refine ⟨by omega, by omega, ?_⟩
          rw [show s - 1 + 1 = s from by omega]
          exact hh0v.symm
        · rw [byteAt_setByte_ne _ _ _ _ hxe0]
          rcases htabGood x hx with h0x | ⟨hg1, hg2, hg3⟩
          · exact Or.inl h0x
          · exact Or.inr ⟨hg1, by omega, hg3⟩

/-- One mid-group iteration (mask `2^k`): dispatch on the compressor
branch. -/
theorem mainBranch (y : List Nat) (t e : Nat) (hty : t = y.length)
    (he : e = t / 2) (ht : 44 ≤ t) (hyb : ∀ j, byteAt y j < 256)
    (fuel : Nat)
    (IH : ∀ c d s i f s0 h0 h out a outF dF fd p2 dst aa,
      compLoop y t e fuel c d s i f s0 h0 h out a = some (outF, dF) →
      SimInv y t e c d s i f s0 h0 out a fd p2 dst aa outF dF →
      decompLoop (outF.take dF) t fuel fd s p2 i d dst aa = some y)
    (k c d s f s0 h0 h : Nat) (out a : List Nat)
    (outF : List Nat) (dF fd p2 : Nat) (dst aa : List Nat)
    (hk : k < 8)
    (hcomp : compLoop y t e (fuel+1) c d s (2^k) f s0 h0 h out a
      = some (outF, dF))
    (hinv : SimInv y t e c d s (2^k) f s0 h0 out a fd p2 dst aa outF dF)
    (hs : s < t) :
    decompLoop (outF.take dF) t (fuel+1) fd s p2 (2^k) d dst aa
      = some y := by
  by_cases hnear : s > t - 3
  · exact mainBranchNear y t e hty he ht hyb fuel IH k c d s f s0 h0 h
      out a outF dF fd p2 dst aa hk hcomp hinv hs hnear
  · by_cases hp : byteAt a ((byteAt y s ^^^ byteAt y (s+1)) % 256) = 0 ∨
        byteAt y s
          ≠ byteAt y (byteAt a ((byteAt y s ^^^ byteAt y (s+1)) % 256))
    · exact mainBranchLit y t e hty he ht hyb fuel IH k c d s f s0 h0 h
        ((byteAt y s ^^^ byteAt y (s+1)) % 256) out a outF dF fd p2 dst
        aa hk hcomp hinv hs hnear rfl hp
    · exact mainBranchMatch y t e hty he ht hyb fuel IH k c d s f s0 h0
        h ((byteAt y s ^^^ byteAt y (s+1)) % 256) out a outF dF fd p2
        dst aa hk hcomp hinv hs hnear rfl hp

/-- Main simulation: from any invariant-respecting paired state, a
successful compressor run decompresses back to the source. -/
theorem mainSim (y : List Nat) (t e : Nat) (hty : t = y.length)
    (he : e = t / 2) (ht : 44 ≤ t) (hyb : ∀ j, byteAt y j < 256) :
    ∀ fuel c d s i f s0 h0 h out a outF dF fd p2 dst aa,
    compLoop y t e fuel c d s i f s0 h0 h out a = some (outF, dF) →
    SimInv y t e c d s i f s0 h0 out a fd p2 dst aa outF dF →
    decompLoop (outF.take dF) t fuel fd s p2 i d dst aa = some y := by
  intro fuel
  induction fuel with
  | zero =>
      intro c d s i f s0 h0 h out a outF dF fd p2 dst aa hcomp hinv
      simp [compLoop] at hcomp
  | succ fuel ih =>
      intro c d s i f s0 h0 h out a outF dF fd p2 dst aa hcomp hinv
      by_cases hs : s < t
      · have hmask := hinv.2.2.1
        rcases hmask with hi0 | ⟨k, hk, hik, hflt, hcd, hbud⟩
        · -- group start
          subst hi0
          by_cases habort : d > e - 17
          · exfalso
            rw [compLoop] at hcomp
            rw [if_pos hs, if_pos ⟨rfl, habort⟩] at hcomp
            cases hcomp
          · obtain ⟨hs8, hst, -, hde, hoe, hal, haal, hob, hdl, hpre,
              hpend, htab, -⟩ := hinv
            rw [compLoop_ctrl_eq y t e fuel c d s f s0 h0 h out a hs
              habort] at hcomp
            have hd1dF : d + 1 ≤ dF :=
              compLoop_dMono y t e (fuel+1) _ _ _ _ _ _ _ _ _ _ _ _
                hcomp
            have hdF : dF ≤ e := by
              apply compLoop_dUB y t e (by omega) (fuel+1) d (d+1) s 1 0
                s0 h0 h _ a outF dF hcomp (by omega)
              right
              exact ⟨0, by omega, by norm_num, by omega⟩
            have hlenF : outF.length = e := by
              rw [compLoop_lenOut y t e (fuel+1) _ _ _ _ _ _ _ _ _ _ _ _
                hcomp]
              simp only [length_setByte]
              exact hoe
            have hdataLen : (outF.take dF).length = dF := by
              rw [List.length_take]
              omega
            have houtFb : ∀ j, byteAt outF j < 256 :=
              compLoop_outBytes y t e hyb (fuel+1) _ _ _ _ _ _ _ _ _ _
                _ _ hcomp
                (bytesLT_setByte _ _ _ hob (Nat.mod_lt _ (by norm_num)))
            rw [decompLoop_ctrl_eq (outF.take dF) t fuel fd s p2 d dst
              aa (by omega) (by omega)]
            have hfdv : byteAt (outF.take dF) d % 256 = byteAt outF d
                := by
              rw [byteAt_take _ _ _ (by omega)]
              exact Nat.mod_eq_of_lt (houtFb d)
            rw [hfdv]
            rw [show (1:Nat) = 2^0 from rfl] at hcomp ⊢
            apply mainBranch y t e hty he ht hyb fuel ih 0 d (d+1) s 0
              s0 h0 h (setByte out c (f % 256)) a outF dF
              (byteAt outF d) p2 dst aa (by omega) hcomp ?_ hs
            refine ⟨hs8, hst, Or.inr ⟨0, by omega, rfl, by norm_num,
                by omega, by omega⟩, by omega,
              by simp only [length_setByte]; exact hoe, hal, haal,
              bytesLT_setByte _ _ _ hob (Nat.mod_lt _ (by norm_num)),
              hdl, hpre, hpend, htab, fun _ => rfl⟩
        · -- mid-group
          subst hik
          exact mainBranch y t e hty he ht hyb fuel ih k c d s f s0 h0
            h out a outF dF fd p2 dst aa hk hcomp hinv hs
      · -- both loops exit
        rw [decompLoop, if_neg hs]
        rw [compLoop] at hcomp
        rw [if_neg hs] at hcomp
        split at hcomp
        · cases hcomp
        · cases hcomp
          obtain ⟨hs8, hst, _, _, _, _, _, _, hdl, hpre, _, _, _⟩ :=
            hinv
          congr 1
          apply listEqOfByteAt dst y (by omega)
          intro j hj
          exact hpre j (by omega)

theorem byteAt_replicate_zero (n j : Nat) :
    byteAt (List.replicate n 0) j = 0 := by
  rw [byteAt_replicate]
  split <;> rfl

/-- The first two iterations are forced literals (empty hash table),
the third writes at least one more byte: at least 8 output bytes. -/
theorem compInit_dF8 (y : List Nat) (t e : Nat) (ht : 44 ≤ t)
    (out0 : List Nat) (outF : List Nat) (dF : Nat) :
    ∀ fuel, 3 ≤ fuel →
    compLoop y t e fuel 4 4 8 0 0 0 0 0 out0 (List.replicate 256 0)
      = some (outF, dF) →
    22 ≤ e →
    8 ≤ dF := by
  intro fuel hf3 hcomp he22
  obtain ⟨fu, rfl⟩ : ∃ fu, fuel = (fu + 1 + 1) + 1 :=
    ⟨fuel - 3, by omega⟩
  rw [compLoop_ctrl_eq y t e (fu+1+1) 4 4 8 0 0 0 0 out0
    (List.replicate 256 0) (by omega) (by omega)] at hcomp
  rw [compLoop_step_lit y t e (fu+1+1) 4 5 8 1 0 0 0 0
    (setByte out0 4 (0 % 256)) (List.replicate 256 0)
    ((byteAt y 8 ^^^ byteAt y 9) % 256) (by omega) (by omega)
    (by omega) rfl
    (Or.inl (byteAt_replicate_zero 256 _))] at hcomp
  rw [if_neg (show ¬ (0:Nat) > 0 from by omega)] at hcomp
  rw [compLoop_step_lit y t e (fu+1) 4 6 9 (1 * 2 % 256) 0 8
    ((byteAt y 8 ^^^ byteAt y 9) % 256)
    ((byteAt y 8 ^^^ byteAt y 9) % 256)
    (setByte (setByte out0 4 (0 % 256)) 5 (byteAt y 8))
    (List.replicate 256 0)
    ((byteAt y 9 ^^^ byteAt y 10) % 256) (by omega) (by norm_num)
    (by omega) rfl
    (Or.inl (byteAt_replicate_zero 256 _))] at hcomp
  rw [if_pos (show (8:Nat) > 0 from by omega)] at hcomp
  by_cases hp10 : byteAt (setByte (List.replicate 256 0)
      ((byteAt y 8 ^^^ byteAt y 9) % 256) 8)
      ((byteAt y 10 ^^^ byteAt y 11) % 256) = 0 ∨
      byteAt y 10 ≠ byteAt y (byteAt (setByte (List.replicate 256 0)
        ((byteAt y 8 ^^^ byteAt y 9) % 256) 8)
        ((byteAt y 10 ^^^ byteAt y 11) % 256))
  · rw [compLoop_step_lit y t e fu 4 7 10 (1 * 2 % 256 * 2 % 256) 0 9
      ((byteAt y 9 ^^^ byteAt y 10) % 256)
      ((byteAt y 9 ^^^ byteAt y 10) % 256)
      (setByte (setByte (setByte out0 4 (0 % 256)) 5 (byteAt y 8)) 6
        (byteAt y 9))
      (setByte (List.replicate 256 0)
        ((byteAt y 8 ^^^ byteAt y 9) % 256) 8)
      ((byteAt y 10 ^^^ byteAt y 11) % 256) (by omega) (by norm_num)
      (by omega) rfl hp10] at hcomp
    have := compLoop_dMono y t e fu _ _ _ _ _ _ _ _ _ _ _ _ hcomp
    omega
  · rw [compLoop_step_match y t e fu 4 7 10 (1 * 2 % 256 * 2 % 256) 0 9
      ((byteAt y 9 ^^^ byteAt y 10) % 256)
      ((byteAt y 9 ^^^ byteAt y 10) % 256)
      (setByte (setByte (setByte out0 4 (0 % 256)) 5 (byteAt y 8)) 6
        (byteAt y 9))
      (setByte (List.replicate 256 0)
        ((byteAt y 8 ^^^ byteAt y 9) % 256) 8)
      ((byteAt y 10 ^^^ byteAt y 11) % 256) _ _ (by omega) (by norm_num)
      (by omega) rfl rfl rfl hp10] at hcomp
    have := compLoop_dMono y t e fu _ _ _ _ _ _ _ _ _ _ _ _ hcomp
    omega

set_option maxHeartbeats 1000000 in
/-- C1, amended: whenever `compress` actually compresses (returns
something other than its input), decompressing with the original
message header restores the message, for any well-formed little-endian
IPC message. -/
theorem c1_amended (m : List Nat) (level : Int)
    (hb : ∀ j, byteAt m j < 256)
    (h0 : byteAt m 0 = 1) (h2 : byteAt m 2 = 0) (h3 : byteAt m 3 = 0)
    (hlen4 : ∀ j, j < 4 → byteAt m (4+j) = byteAt (le32 m.length) j)
    (hsz : m.length < 2^31)
    (hneq : compressM m level ≠ m) :
    decompressM (compressM m level) (m.take 8) = some m := by
  by_cases hg1 : level ≤ 0 ∨ m.length ≤ 17
  · rw [compressM, if_pos hg1] at hneq
    exact absurd rfl hneq
  · rw [compressM, if_neg hg1] at hneq ⊢
    by_cases hg2 : m.length / 2 < 22
    · rw [if_pos hg2] at hneq
      exact absurd rfl hneq
    · rw [if_neg hg2] at hneq ⊢
      simp only [] at hneq ⊢
      have he22 : 22 ≤ m.length / 2 := by omega
      have ht44 : 44 ≤ m.length := by omega
      cases hcl : compLoop m m.length (m.length / 2) m.length 4 4 8 0 0
          0 0 0
          (setByte (setByte (setByte (setByte
            (List.replicate (m.length / 2) 0) 0 (m.length % 256)) 1
            (m.length / 256 % 256)) 2 (m.length / 65536 % 256)) 3
            (m.length / 16777216 % 256))
          (List.replicate 256 0) with
      | none =>
          rw [hcl] at hneq
          exact absurd rfl hneq
      | some od =>
          obtain ⟨outF, dF⟩ := od
          show decompressM (outF.take dF) (m.take 8) = some m
          have hout0len : (setByte (setByte (setByte (setByte
              (List.replicate (m.length / 2) 0) 0 (m.length % 256)) 1
              (m.length / 256 % 256)) 2 (m.length / 65536 % 256)) 3
              (m.length / 16777216 % 256)).length = m.length / 2 := by
            simp [length_setByte, List.length_replicate]
          have hout0b : ∀ j, byteAt (setByte (setByte (setByte (setByte
              (List.replicate (m.length / 2) 0) 0 (m.length % 256)) 1
              (m.length / 256 % 256)) 2 (m.length / 65536 % 256)) 3
              (m.length / 16777216 % 256)) j < 256 := by
            apply bytesLT_setByte _ _ _ ?_ (Nat.mod_lt _ (by norm_num))
            apply bytesLT_setByte _ _ _ ?_ (Nat.mod_lt _ (by norm_num))
            apply bytesLT_setByte _ _ _ ?_ (Nat.mod_lt _ (by norm_num))
            apply bytesLT_setByte _ _ _ ?_ (Nat.mod_lt _ (by norm_num))
            intro j
            rw [byteAt_replicate]
            split <;> norm_num
          have hdF8 : 8 ≤ dF := compInit_dF8 m m.length (m.length / 2)
            ht44 _ outF dF m.length (by omega) hcl he22
          have hdFe : dF ≤ m.length / 2 := by
            apply compLoop_dUB m m.length (m.length / 2) (by omega)
              m.length 4 4 8 0 0 0 0 0 _ _ outF dF hcl (by omega)
            exact Or.inl rfl
          have hlenF : outF.length = m.length / 2 := by
            rw [compLoop_lenOut m m.length (m.length / 2) m.length _ _ _
              _ _ _ _ _ _ _ _ _ hcl]
            exact hout0len
          have hdataLen : (outF.take dF).length = dF := by
            rw [List.length_take]
            omega
          have hbyte : ∀ j, j < 4 → byteAt (outF.take dF) j
              = byteAt (le32 m.length) j := by
            intro j hj
            rw [byteAt_take _ _ _ (by omega)]
            rw [compLoop_outLower m m.length (m.length / 2) m.length _ _
              _ _ _ _ _ _ _ _ _ _ hcl j (by omega) (by omega)]
            interval_cases j
            · rw [byteAt_setByte_ne _ _ _ _ (by norm_num),
                byteAt_setByte_ne _ _ _ _ (by norm_num),
                byteAt_setByte_ne _ _ _ _ (by norm_num),
                byteAt_setByte_self _ _ _ (by
                  simp [List.length_replicate]; omega)]
              rfl
            · rw [byteAt_setByte_ne _ _ _ _ (by norm_num),
                byteAt_setByte_ne _ _ _ _ (by norm_num),
                byteAt_setByte_self _ _ _ (by
                  simp [length_setByte, List.length_replicate]; omega)]
              rfl
            · rw [byteAt_setByte_ne _ _ _ _ (by norm_num),
                byteAt_setByte_self _ _ _ (by
                  simp [length_setByte, List.length_replicate]; omega)]
              rfl
            · rw [byteAt_setByte_self _ _ _ (by
                  simp [length_setByte, List.length_replicate]; omega)]
              rfl
          have hru : readU32LE (outF.take dF) 0 = m.length := by
            rw [readU32LE]
            rw [hbyte 0 (by norm_num), hbyte 1 (by norm_num),
              hbyte 2 (by norm_num), hbyte 3 (by norm_num)]
            show m.length % 256 + 256 * (m.length / 256 % 256)
              + 65536 * (m.length / 65536 % 256)
              + 16777216 * (m.length / 16777216 % 256) = m.length
            omega
          have hleP : ((m.take 8).length < 1 ∨ byteAt (m.take 8) 0 = 1)
              := by
            right
            rw [byteAt_take _ _ _ (by norm_num)]
            exact h0
          simp only [decompressM]
          rw [if_neg (show ¬ (outF.take dF).length < 8 from by omega)]
          rw [decide_eq_true hleP]
          simp only [readI32, if_true, ite_true]
          rw [hru]
          rw [toInt32, if_pos (show m.length < 2147483648 from by omega)]
          rw [if_neg (show ¬ ((m.length : Int) < 9) from by
            push_cast
            omega)]
          rw [if_pos hleP]
          rw [if_pos (show (m.take 8).length ≥ 8 from by
            rw [List.length_take]
            omega)]
          rw [Int.toNat_natCast]
          apply mainSim m m.length (m.length / 2) rfl rfl ht44 hb
            m.length 4 4 8 0 0 0 0 0 _ _ outF dF 0 8 _ _ hcl
          refine ⟨by omega, by omega, Or.inl rfl, by omega, hout0len,
            List.length_replicate 256 0, List.length_replicate 256 0,
            hout0b, ?_, ?_, Or.inl ⟨rfl, rfl⟩, ?_,
            fun hc => absurd rfl hc⟩
          · simp [length_setByte, List.length_replicate]
          · intro j hj
            have hjt : j < m.length := by omega
            interval_cases j
            · rw [byteAt_setByte_ne _ _ _ _ (by norm_num),
                byteAt_setByte_ne _ _ _ _ (by norm_num),
                byteAt_setByte_ne _ _ _ _ (by norm_num),
                byteAt_setByte_ne _ _ _ _ (by norm_num),
                byteAt_setByte_ne _ _ _ _ (by norm_num),
                byteAt_setByte_ne _ _ _ _ (by norm_num),
                byteAt_setByte_ne _ _ _ _ (by norm_num),
                byteAt_setByte_self _ _ _ (by
                  simp [length_setByte, List.length_replicate]; omega)]
              rw [byteAt_take _ _ _ (by norm_num)]
            · rw [byteAt_setByte_ne _ _ _ _ (by norm_num),
                byteAt_setByte_ne _ _ _ _ (by norm_num),
                byteAt_setByte_ne _ _ _ _ (by norm_num),
                byteAt_setByte_ne _ _ _ _ (by norm_num),
                byteAt_setByte_ne _ _ _ _ (by norm_num),
                byteAt_setByte_ne _ _ _ _ (by norm_num),
                byteAt_setByte_self _ _ _ (by
                  simp [length_setByte, List.length_replicate]; omega)]
              rw [byteAt_take _ _ _ (by norm_num)]
            · rw [byteAt_setByte_ne _ _ _ _ (by norm_num),
                byteAt_setByte_ne _ _ _ _ (by norm_num),
                byteAt_setByte_ne _ _ _ _ (by norm_num),
                byteAt_setByte_ne _ _ _ _ (by norm_num),
                byteAt_setByte_ne _ _ _ _ (by norm_num),
                byteAt_setByte_self _ _ _ (by
                  simp [length_setByte, List.length_replicate]; omega)]
              exact h2.symm
            · rw [byteAt_setByte_ne _ _ _ _ (by norm_num),
                byteAt_setByte_ne _ _ _ _ (by norm_num),
                byteAt_setByte_ne _ _ _ _ (by norm_num),
                byteAt_setByte_ne _ _ _ _ (by norm_num),
                byteAt_setByte_self _ _ _ (by
                  simp [length_setByte, List.length_replicate]; omega)]
              exact h3.symm
            · rw [byteAt_setByte_ne _ _ _ _ (by norm_num),
                byteAt_setByte_ne _ _ _ _ (by norm_num),
                byteAt_setByte_ne _ _ _ _ (by norm_num),
                byteAt_setByte_self _ _ _ (by
                  simp [length_setByte, List.length_replicate]; omega)]
              exact (hlen4 0 (by norm_num)).symm
            · rw [byteAt_setByte_ne _ _ _ _ (by norm_num),
                byteAt_setByte_ne _ _ _ _ (by norm_num),
                byteAt_setByte_self _ _ _ (by
                  simp [length_setByte, List.length_replicate]; omega)]
              exact (hlen4 1 (by norm_num)).symm
            · rw [byteAt_setByte_ne _ _ _ _ (by norm_num),
                byteAt_setByte_self _ _ _ (by
                  simp [length_setByte, List.length_replicate]; omega)]
              exact (hlen4 2 (by norm_num)).symm
            · rw [byteAt_setByte_self _ _ _ (by
                  simp [length_setByte, List.length_replicate]; omega)]
              exact (hlen4 3 (by norm_num)).symm
          · intro _
            refine ⟨fun x hx => rfl, fun x hx => Or.inl
              (byteAt_replicate_zero 256 x)⟩

theorem byteAt_lt_of_mem (l : List Nat) (h : ∀ b ∈ l, b < 256) :
    ∀ j, byteAt l j < 256 := by
  intro j
  by_cases hj : j < l.length
  · rw [byteAt, List.get?_eq_getElem?, List.getElem?_eq_getElem hj]
    exact h _ (List.getElem_mem hj)
  · rw [byteAt, List.get?_eq_getElem?, List.getElem?_eq_none (by omega)]
    norm_num

set_option maxRecDepth 10000 in
theorem c1_witness :
    compressM msg48 1 ≠ msg48 ∧
    decompressM (compressM msg48 1) (msg48.take 8) = some msg48 :=
  ⟨by decide,
   c1_amended msg48 1
     (byteAt_lt_of_mem msg48 (by decide))
     (by decide) (by decide) (by decide)
     (by decide) (by decide) (by decide)⟩

end Qorm
